import Mathlib

/-!
Verification development for the beignet GPU compiler backend.

We shallowly embed the parts of the code base that the checked properties
talk about:
  * the scalar IR (`ir/instruction.cpp`, `ir/function.cpp`),
  * the code-generation strategy loop (`backend/gen_program.cpp`),
  * the dependency-DAG instruction scheduler (`backend/gen_insn_scheduling.cpp`).

Machine integers are modelled by `Nat`; the places where an overflow or a
wrap-around could matter are noted next to the definitions.  Headers of the
repository that are not part of the source snapshot (gen_defs.hpp, ir/type.hpp,
ir/profile.hpp, the Gen7 latency tables) are modelled from the specification;
each such definition carries a note.
-/

namespace Beignet

/-! ## IR registers, types and families (ir side) -/

/-- Register families, one per operand width class.
Modelled from the spec: ir/register.hpp is not part of the source snapshot;
the spec lists the families "boolean, byte, word, dword, qword". -/
inductive RegisterFamily where
  | FAMILY_BOOL
  | FAMILY_BYTE
  | FAMILY_WORD
  | FAMILY_DWORD
  | FAMILY_QWORD
deriving DecidableEq, Repr

export RegisterFamily (FAMILY_BOOL FAMILY_BYTE FAMILY_WORD FAMILY_DWORD FAMILY_QWORD)

/-- IR types.  Modelled from the spec: ir/type.hpp is not part of the source
snapshot; the spec lists "8/16/32/64-bit integer, half/float/double" plus
booleans. -/
inductive IRType where
  | TYPE_BOOL
  | TYPE_S8
  | TYPE_U8
  | TYPE_S16
  | TYPE_U16
  | TYPE_S32
  | TYPE_U32
  | TYPE_S64
  | TYPE_U64
  | TYPE_HALF
  | TYPE_FLOAT
  | TYPE_DOUBLE
deriving DecidableEq, Repr

export IRType (TYPE_BOOL TYPE_S8 TYPE_U8 TYPE_S16 TYPE_U16 TYPE_S32 TYPE_U32
  TYPE_S64 TYPE_U64 TYPE_HALF TYPE_FLOAT TYPE_DOUBLE)

/-- Family of each type.  Modelled from the spec: the type-to-family mapping of
ir/type.hpp maps booleans to the boolean family and each scalar type to the
family of its byte width. -/
def getFamily : IRType → RegisterFamily
  | TYPE_BOOL => FAMILY_BOOL
  | TYPE_S8 => FAMILY_BYTE
  | TYPE_U8 => FAMILY_BYTE
  | TYPE_S16 => FAMILY_WORD
  | TYPE_U16 => FAMILY_WORD
  | TYPE_HALF => FAMILY_WORD
  | TYPE_S32 => FAMILY_DWORD
  | TYPE_U32 => FAMILY_DWORD
  | TYPE_FLOAT => FAMILY_DWORD
  | TYPE_S64 => FAMILY_QWORD
  | TYPE_U64 => FAMILY_QWORD
  | TYPE_DOUBLE => FAMILY_QWORD

/-- Virtual registers are plain indices into the function register file
(`TYPE_SAFE(Register, uint16_t)` in the source). -/
abbrev Register := Nat

/-! ## The function environment used by `wellFormed` (ir/function.hpp) -/

/-- The part of `ir::Function` that the well-formedness checks consult: the
register file (one family per register), the flat tuple storage, the immediate
table (we only keep each immediate's type, the only field `wellFormed` reads),
the label table size, and the special-register window.  The special-register
window `[0, specialRegNum)` together with `stackptr` is modelled from the spec:
ir/profile.hpp (`ocl::regNum`, `ocl::stackptr`) is not part of the source
snapshot; `Function::getFirstSpecialReg` returns 0 for the OCL profile. -/
structure IRFunction where
  regs : List RegisterFamily
  tuples : List Register
  immTypes : List IRType
  labelNumV : Nat
  specialRegNum : Nat
  stackptr : Nat
deriving Repr

namespace IRFunction

def regNum (fn : IRFunction) : Nat := fn.regs.length

def tupleNum (fn : IRFunction) : Nat := fn.tuples.length

def immediateNum (fn : IRFunction) : Nat := fn.immTypes.length

def labelNum (fn : IRFunction) : Nat := fn.labelNumV

/-- `Function::getRegisterData(reg).family`; total with a default for the
out-of-bounds reads that the C++ leaves undefined (always guarded by a bounds
check before the family is inspected). -/
def familyOf (fn : IRFunction) (r : Register) : RegisterFamily :=
  fn.regs.getD r FAMILY_DWORD

/-- `Function::getRegister(Tuple, which)`: tuple indices address the flat
tuple storage. -/
def tupleReg (fn : IRFunction) (t : Nat) (which : Nat) : Register :=
  fn.tuples.getD (t + which) 0

/-- `Function::isSpecialReg`: the OCL profile reserves the id window
`[0, specialRegNum)`. -/
def isSpecialReg (fn : IRFunction) (r : Register) : Bool :=
  decide (r < fn.specialRegNum)

end IRFunction

/-! ## IR instructions (ir/instruction.cpp) -/

/-- Opcodes of the unary/binary (`Nary`) arithmetic class that
`NaryInstruction::wellFormed` distinguishes; every other opcode of the class
falls into the `default:` label of its type switch. -/
inductive NaryOp where
  | OP_OR | OP_XOR | OP_AND
  | OP_POW | OP_COS | OP_SIN | OP_RCP | OP_ABS | OP_RSQ | OP_SQR
  | OP_RNDD | OP_RNDE | OP_RNDU | OP_RNDZ
  | OP_OTHER (n : Nat)
deriving DecidableEq, Repr

/-- Memory spaces (`enum AddressSpace`). -/
inductive AddressSpace where
  | MEM_GLOBAL | MEM_LOCAL | MEM_CONSTANT | MEM_PRIVATE
deriving DecidableEq, Repr

/-- The concrete instruction classes of ir/instruction.cpp, with the fields
their `wellFormed` implementations read.  `nary` covers both
`UnaryInstruction` and `BinaryInstruction` (`srcs` has length 1 or 2);
`select`'s three sources live in a tuple; `bra` covers the `OP_BRA` forms of
`BranchInstruction` and `ret` its `OP_RET` form. -/
inductive IRInstruction where
  | nary (op : NaryOp) (ty : IRType) (dst : Register) (srcs : List Register)
  | select (ty : IRType) (dst : Register) (src : Nat)
  | compare (ty : IRType) (dst : Register) (src0 src1 : Register)
  | convert (dstType srcType : IRType) (dst src : Register)
  | bra (labelIndex : Nat) (predicate : Option Register)
  | ret
  | load (ty : IRType) (values : Nat) (offset : Register)
      (addrSpace : AddressSpace) (valueNum : Nat) (dwAligned : Bool)
  | store (ty : IRType) (values : Nat) (offset : Register)
      (addrSpace : AddressSpace) (valueNum : Nat) (dwAligned : Bool)
  | sample
  | typedWrite
  | loadImm (ty : IRType) (dst : Register) (immediateIndex : Nat)
  | sync (parameters : Nat)
  | label (labelIndex : Nat)
deriving DecidableEq, Repr

namespace IRInstruction

/-- `Instruction::MAX_SRC_NUM` (ir/instruction.hpp). -/
def MAX_SRC_NUM : Nat := 8
/-- `Instruction::MAX_DST_NUM` (ir/instruction.hpp). -/
def MAX_DST_NUM : Nat := 8

/-- The sync-scope bits (`SYNC_*` in ir/instruction.hpp). -/
def SYNC_WORKGROUP_EXEC : Nat := 1
def SYNC_LOCAL_READ_FENCE : Nat := 2
def SYNC_LOCAL_WRITE_FENCE : Nat := 4
def SYNC_GLOBAL_READ_FENCE : Nat := 8
def SYNC_GLOBAL_WRITE_FENCE : Nat := 16

/-! ### The helper checks shared by the `wellFormed` implementations -/

/-- `checkRegisterData`: the register index must be in bounds and its family
must match the expected one. -/
def checkRegisterData (family : RegisterFamily) (r : Register)
    (fn : IRFunction) : Bool :=
  decide (r < fn.regNum) && decide (fn.familyOf r = family)

/-- `checkSpecialRegForWrite`: special registers are not writeable, except the
stack pointer. -/
def checkSpecialRegForWrite (r : Register) (fn : IRFunction) : Bool :=
  !(fn.isSpecialReg r && decide (r ≠ fn.stackptr))

/-- `allButBool` from ir/instruction.cpp (64-bit and half types deliberately
absent, per the "TODO add support for 64 bits values" comment). -/
def allButBool : List IRType :=
  [TYPE_S8, TYPE_U8, TYPE_S16, TYPE_U16, TYPE_S32, TYPE_U32,
   TYPE_FLOAT, TYPE_DOUBLE]

/-- `logicalType` from ir/instruction.cpp. -/
def logicalType : List IRType :=
  [TYPE_S8, TYPE_U8, TYPE_S16, TYPE_U16, TYPE_S32, TYPE_U32, TYPE_BOOL]

/-- `checkTypeFamily`: membership of the type in the allowed list. -/
def checkTypeFamily (ty : IRType) (family : List IRType) : Bool :=
  family.contains ty

/-- The type switch of `NaryInstruction::wellFormed`.  Note that the float-only
case checks `TYPE_FLOAT` against the singleton family `{TYPE_FLOAT}` — i.e. it
checks the constant, not the instruction's type, and therefore always passes;
we embed that faithfully. -/
def naryTypeOk (op : NaryOp) (ty : IRType) : Bool :=
  match op with
  | .OP_OR | .OP_XOR | .OP_AND => checkTypeFamily ty logicalType
  | .OP_POW | .OP_COS | .OP_SIN | .OP_RCP | .OP_ABS | .OP_RSQ | .OP_SQR
  | .OP_RNDD | .OP_RNDE | .OP_RNDU | .OP_RNDZ =>
      checkTypeFamily TYPE_FLOAT [TYPE_FLOAT]
  | _ => checkTypeFamily ty allButBool

/-- `NaryInstruction<srcNum>::wellFormed`. -/
def naryWellFormed (op : NaryOp) (ty : IRType) (dst : Register)
    (srcs : List Register) (fn : IRFunction) : Bool :=
  let family := getFamily ty
  checkSpecialRegForWrite dst fn &&
  checkRegisterData family dst fn &&
  srcs.all (fun s => checkRegisterData family s fn) &&
  naryTypeOk op ty

/-- `SelectInstruction::wellFormed`. -/
def selectWellFormed (ty : IRType) (dst : Register) (src : Nat)
    (fn : IRFunction) : Bool :=
  let family := getFamily ty
  checkSpecialRegForWrite dst fn &&
  checkRegisterData family dst fn &&
  decide (src + 3 ≤ fn.tupleNum) &&
  checkRegisterData FAMILY_BOOL (fn.tupleReg src 0) fn &&
  checkRegisterData family (fn.tupleReg src 1) fn &&
  checkRegisterData family (fn.tupleReg src 2) fn &&
  checkTypeFamily ty allButBool

/-- `CompareInstruction::wellFormed` (destination is always boolean). -/
def compareWellFormed (ty : IRType) (dst : Register) (src0 src1 : Register)
    (fn : IRFunction) : Bool :=
  checkSpecialRegForWrite dst fn &&
  checkRegisterData FAMILY_BOOL dst fn &&
  checkRegisterData (getFamily ty) src0 fn &&
  checkRegisterData (getFamily ty) src1 fn &&
  checkTypeFamily ty allButBool

/-- `ConvertInstruction::wellFormed`. -/
def convertWellFormed (dstType srcType : IRType) (dst src : Register)
    (fn : IRFunction) : Bool :=
  checkSpecialRegForWrite dst fn &&
  checkRegisterData (getFamily dstType) dst fn &&
  checkRegisterData (getFamily srcType) src fn &&
  checkTypeFamily dstType allButBool &&
  checkTypeFamily srcType allButBool

/-- `wellFormedLoadStore`, shared by loads and stores. -/
def wellFormedLoadStore (ty : IRType) (values : Nat) (offset : Register)
    (valueNum : Nat) (fn : IRFunction) : Bool :=
  decide (offset < fn.regNum) &&
  decide (values + valueNum ≤ fn.tupleNum) &&
  (List.range valueNum).all
    (fun i => checkRegisterData (getFamily ty) (fn.tupleReg values i) fn) &&
  checkTypeFamily ty allButBool

/-- `LoadInstruction::wellFormed`. -/
def loadWellFormed (ty : IRType) (values : Nat) (offset : Register)
    (valueNum : Nat) (fn : IRFunction) : Bool :=
  (List.range valueNum).all
    (fun i => checkSpecialRegForWrite (fn.tupleReg values i) fn) &&
  decide (valueNum ≤ MAX_DST_NUM) &&
  wellFormedLoadStore ty values offset valueNum fn

/-- `StoreInstruction::wellFormed` (`srcNum = valueNum + 1`). -/
def storeWellFormed (ty : IRType) (values : Nat) (offset : Register)
    (valueNum : Nat) (fn : IRFunction) : Bool :=
  decide (valueNum + 1 ≤ MAX_SRC_NUM) &&
  wellFormedLoadStore ty values offset valueNum fn

/-- `LoadImmInstruction::wellFormed`. -/
def loadImmWellFormed (ty : IRType) (dst : Register) (immediateIndex : Nat)
    (fn : IRFunction) : Bool :=
  decide (immediateIndex < fn.immediateNum) &&
  decide (fn.immTypes.getD immediateIndex TYPE_BOOL = ty) &&
  checkSpecialRegForWrite dst fn &&
  checkRegisterData (getFamily ty) dst fn &&
  checkTypeFamily ty allButBool

/-- `SyncInstruction::wellFormed`: the parameter bitmask must be non-zero and
no larger than the OR of the five scope bits. -/
def syncWellFormed (parameters : Nat) : Bool :=
  let maxParams := SYNC_WORKGROUP_EXEC ||| SYNC_LOCAL_READ_FENCE |||
    SYNC_LOCAL_WRITE_FENCE ||| SYNC_GLOBAL_READ_FENCE ||| SYNC_GLOBAL_WRITE_FENCE
  if decide (parameters > maxParams) then false
  else if decide (parameters = 0) then false
  else true

/-- `LabelInstruction::wellFormed`. -/
def labelWellFormed (labelIndex : Nat) (fn : IRFunction) : Bool :=
  decide (labelIndex < fn.labelNum)

/-- `BranchInstruction::wellFormed`. -/
def branchWellFormed (hasLabel : Bool) (labelIndex : Nat)
    (predicate : Option Register) (fn : IRFunction) : Bool :=
  (!hasLabel || decide (labelIndex < fn.labelNum)) &&
  (match predicate with
   | some p => checkRegisterData FAMILY_BOOL p fn
   | none => true)

/-- The dispatching `wellFormed` over the instruction classes. -/
def wellFormed (fn : IRFunction) : IRInstruction → Bool
  | .nary op ty dst srcs => naryWellFormed op ty dst srcs fn
  | .select ty dst src => selectWellFormed ty dst src fn
  | .compare ty dst src0 src1 => compareWellFormed ty dst src0 src1 fn
  | .convert dstType srcType dst src => convertWellFormed dstType srcType dst src fn
  | .bra labelIndex predicate => branchWellFormed true labelIndex predicate fn
  | .ret => branchWellFormed false 0 none fn
  | .load ty values offset _ valueNum _ => loadWellFormed ty values offset valueNum fn
  | .store ty values offset _ valueNum _ => storeWellFormed ty values offset valueNum fn
  | .sample => true
  | .typedWrite => true
  | .loadImm ty dst immediateIndex => loadImmWellFormed ty dst immediateIndex fn
  | .sync parameters => syncWellFormed parameters
  | .label labelIndex => labelWellFormed labelIndex fn

/-! ### Operand lists, as exposed by `getSrc` / `getDst` of each class -/

/-- The destination registers of an instruction, following each class's
`getDst` accessors. -/
def dstRegs (fn : IRFunction) : IRInstruction → List Register
  | .nary _ _ dst _ => [dst]
  | .select _ dst _ => [dst]
  | .compare _ dst _ _ => [dst]
  | .convert _ _ dst _ => [dst]
  | .bra _ _ => []
  | .ret => []
  | .load _ values _ _ valueNum _ =>
      (List.range valueNum).map (fun i => fn.tupleReg values i)
  | .store _ _ _ _ _ _ => []
  | .sample => []
  | .typedWrite => []
  | .loadImm _ dst _ => [dst]
  | .sync _ => []
  | .label _ => []

/-- The source registers of an instruction, following each class's `getSrc`
accessors (for stores, source 0 is the offset and the rest are the values). -/
def srcRegs (fn : IRFunction) : IRInstruction → List Register
  | .nary _ _ _ srcs => srcs
  | .select _ _ src => [fn.tupleReg src 0, fn.tupleReg src 1, fn.tupleReg src 2]
  | .compare _ _ src0 src1 => [src0, src1]
  | .convert _ _ _ src => [src]
  | .bra _ predicate => predicate.toList
  | .ret => []
  | .load _ _ offset _ _ _ => [offset]
  | .store _ values offset _ valueNum _ =>
      offset :: (List.range valueNum).map (fun i => fn.tupleReg values i)
  | .sample => []
  | .typedWrite => []
  | .loadImm _ _ _ => []
  | .sync _ => []
  | .label _ => []

/-! ### The properties claimed for `wellFormed` (stated from the spec text) -/

/-- Every source and destination register index is in bounds of the register
file. -/
def RegsInBounds (fn : IRFunction) (insn : IRInstruction) : Prop :=
  (∀ r ∈ srcRegs fn insn, r < fn.regNum) ∧ (∀ r ∈ dstRegs fn insn, r < fn.regNum)

/-- Operand families match the family required by the opcode and type: the
typed operands carry the type's family, compares write a boolean destination,
selects read a boolean first source, branches read a boolean predicate,
converts use their two respective types. -/
def FamiliesOk (fn : IRFunction) : IRInstruction → Prop
  | .nary _ ty dst srcs =>
      fn.familyOf dst = getFamily ty ∧ ∀ s ∈ srcs, fn.familyOf s = getFamily ty
  | .select ty dst src =>
      fn.familyOf (fn.tupleReg src 0) = FAMILY_BOOL ∧
      fn.familyOf dst = getFamily ty ∧
      fn.familyOf (fn.tupleReg src 1) = getFamily ty ∧
      fn.familyOf (fn.tupleReg src 2) = getFamily ty
  | .compare ty dst src0 src1 =>
      fn.familyOf dst = FAMILY_BOOL ∧
      fn.familyOf src0 = getFamily ty ∧ fn.familyOf src1 = getFamily ty
  | .convert dstType srcType dst src =>
      fn.familyOf dst = getFamily dstType ∧ fn.familyOf src = getFamily srcType
  | .bra _ predicate =>
      ∀ p ∈ predicate.toList, fn.familyOf p = FAMILY_BOOL
  | .load ty values _ _ valueNum _ =>
      ∀ i < valueNum, fn.familyOf (fn.tupleReg values i) = getFamily ty
  | .store ty values _ _ valueNum _ =>
      ∀ i < valueNum, fn.familyOf (fn.tupleReg values i) = getFamily ty
  | .loadImm ty dst _ => fn.familyOf dst = getFamily ty
  | _ => True

/-- Every tuple, label and immediate index referenced by the instruction is in
bounds. -/
def IndicesOk (fn : IRFunction) : IRInstruction → Prop
  | .select _ _ src => src + 3 ≤ fn.tupleNum
  | .bra labelIndex _ => labelIndex < fn.labelNum
  | .load _ values _ _ valueNum _ => values + valueNum ≤ fn.tupleNum
  | .store _ values _ _ valueNum _ => values + valueNum ≤ fn.tupleNum
  | .loadImm _ _ immediateIndex => immediateIndex < fn.immediateNum
  | .label labelIndex => labelIndex < fn.labelNum
  | _ => True

/-- No special (reserved) register is written, except the stack pointer. -/
def SpecialWriteOk (fn : IRFunction) (insn : IRInstruction) : Prop :=
  ∀ r ∈ dstRegs fn insn, fn.isSpecialReg r = true → r = fn.stackptr

theorem checkRegisterData_eq_true {family : RegisterFamily} {r : Register}
    {fn : IRFunction} :
    checkRegisterData family r fn = true ↔
      r < fn.regNum ∧ fn.familyOf r = family := by
  simp [checkRegisterData]

theorem checkSpecialRegForWrite_eq_true {r : Register} {fn : IRFunction} :
    checkSpecialRegForWrite r fn = true ↔
      (fn.isSpecialReg r = true → r = fn.stackptr) := by
  simp only [checkSpecialRegForWrite, Bool.not_eq_true', Bool.and_eq_false_iff,
    decide_eq_false_iff_not, not_not]
  cases h : fn.isSpecialReg r <;> simp

end IRInstruction

/-- Claim C5: whenever `wellFormed` accepts an instruction, all of its source
and destination registers are in bounds with the families required by the
opcode and type (boolean destination for compares, boolean first source for
selects), every tuple, label and immediate index is in bounds, and no special
register other than the stack pointer is written. -/
theorem wellFormed_sound (fn : IRFunction) (insn : IRInstruction)
    (h : IRInstruction.wellFormed fn insn = true) :
    IRInstruction.RegsInBounds fn insn ∧ IRInstruction.FamiliesOk fn insn ∧
    IRInstruction.IndicesOk fn insn ∧ IRInstruction.SpecialWriteOk fn insn := by
  cases insn with
  | nary op ty dst srcs =>
      simp only [IRInstruction.wellFormed, IRInstruction.naryWellFormed,
        Bool.and_eq_true, List.all_eq_true,
        IRInstruction.checkRegisterData_eq_true,
        IRInstruction.checkSpecialRegForWrite_eq_true] at h
      obtain ⟨⟨⟨hsp, hdst⟩, hsrc⟩, _⟩ := h
      refine ⟨⟨fun r hr => (hsrc r hr).1, ?_⟩, ⟨hdst.2, fun s hs => (hsrc s hs).2⟩,
        trivial, ?_⟩
      · intro r hr
        simp only [IRInstruction.dstRegs, List.mem_singleton] at hr
        subst hr; exact hdst.1
      · intro r hr
        simp only [IRInstruction.dstRegs, List.mem_singleton] at hr
        subst hr; exact hsp
  | select ty dst src =>
      simp only [IRInstruction.wellFormed, IRInstruction.selectWellFormed,
        Bool.and_eq_true, IRInstruction.checkRegisterData_eq_true,
        IRInstruction.checkSpecialRegForWrite_eq_true, decide_eq_true_eq] at h
      obtain ⟨⟨⟨⟨⟨⟨hsp, hdst⟩, htup⟩, h0⟩, h1⟩, h2⟩, _⟩ := h
      refine ⟨⟨?_, ?_⟩, ⟨h0.2, hdst.2, h1.2, h2.2⟩, htup, ?_⟩
      · intro r hr
        simp only [IRInstruction.srcRegs, List.mem_cons, List.mem_singleton,
          List.not_mem_nil, or_false] at hr
        rcases hr with h | h | h <;> subst h
        · exact h0.1
        · exact h1.1
        · exact h2.1
      · intro r hr
        simp only [IRInstruction.dstRegs, List.mem_singleton] at hr
        subst hr; exact hdst.1
      · intro r hr
        simp only [IRInstruction.dstRegs, List.mem_singleton] at hr
        subst hr; exact hsp
  | compare ty dst src0 src1 =>
      simp only [IRInstruction.wellFormed, IRInstruction.compareWellFormed,
        Bool.and_eq_true, IRInstruction.checkRegisterData_eq_true,
        IRInstruction.checkSpecialRegForWrite_eq_true] at h
      obtain ⟨⟨⟨⟨hsp, hdst⟩, h0⟩, h1⟩, _⟩ := h
      refine ⟨⟨?_, ?_⟩, ⟨hdst.2, h0.2, h1.2⟩, trivial, ?_⟩
      · intro r hr
        simp only [IRInstruction.srcRegs, List.mem_cons, List.mem_singleton,
          List.not_mem_nil, or_false] at hr
        rcases hr with h | h <;> subst h
        · exact h0.1
        · exact h1.1
      · intro r hr
        simp only [IRInstruction.dstRegs, List.mem_singleton] at hr
        subst hr; exact hdst.1
      · intro r hr
        simp only [IRInstruction.dstRegs, List.mem_singleton] at hr
        subst hr; exact hsp
  | convert dstType srcType dst src =>
      simp only [IRInstruction.wellFormed, IRInstruction.convertWellFormed,
        Bool.and_eq_true, IRInstruction.checkRegisterData_eq_true,
        IRInstruction.checkSpecialRegForWrite_eq_true] at h
      obtain ⟨⟨⟨⟨hsp, hdst⟩, hsrc⟩, _⟩, _⟩ := h
      refine ⟨⟨?_, ?_⟩, ⟨hdst.2, hsrc.2⟩, trivial, ?_⟩
      · intro r hr
        simp only [IRInstruction.srcRegs, List.mem_singleton] at hr
        subst hr; exact hsrc.1
      · intro r hr
        simp only [IRInstruction.dstRegs, List.mem_singleton] at hr
        subst hr; exact hdst.1
      · intro r hr
        simp only [IRInstruction.dstRegs, List.mem_singleton] at hr
        subst hr; exact hsp
  | bra labelIndex predicate =>
      simp only [IRInstruction.wellFormed, IRInstruction.branchWellFormed,
        Bool.not_true, Bool.false_or, Bool.and_eq_true, decide_eq_true_eq] at h
      obtain ⟨hlab, hpred⟩ := h
      refine ⟨⟨?_, ?_⟩, ?_, hlab, ?_⟩
      · intro r hr
        cases predicate with
        | none => simp [IRInstruction.srcRegs] at hr
        | some p =>
            simp only [IRInstruction.srcRegs, Option.toList_some,
              List.mem_singleton] at hr
            subst hr
            rw [IRInstruction.checkRegisterData_eq_true] at hpred
            exact hpred.1
      · intro r hr; simp [IRInstruction.dstRegs] at hr
      · intro p hp
        cases predicate with
        | none => simp at hp
        | some q =>
            simp only [Option.toList_some, List.mem_singleton] at hp
            subst hp
            rw [IRInstruction.checkRegisterData_eq_true] at hpred
            exact hpred.2
      · intro r hr; simp [IRInstruction.dstRegs] at hr
  | ret =>
      refine ⟨⟨?_, ?_⟩, trivial, trivial, ?_⟩ <;>
        intro r hr <;> simp [IRInstruction.srcRegs, IRInstruction.dstRegs] at hr
  | load ty values offset addrSpace valueNum dwAligned =>
      simp only [IRInstruction.wellFormed, IRInstruction.loadWellFormed,
        IRInstruction.wellFormedLoadStore, Bool.and_eq_true, List.all_eq_true,
        List.mem_range, IRInstruction.checkRegisterData_eq_true,
        IRInstruction.checkSpecialRegForWrite_eq_true, decide_eq_true_eq] at h
      obtain ⟨⟨hspec, _⟩, ⟨⟨⟨hoff, htup⟩, hvals⟩, _⟩⟩ := h
      refine ⟨⟨?_, ?_⟩, ?_, htup, ?_⟩
      · intro r hr
        simp only [IRInstruction.srcRegs, List.mem_singleton] at hr
        subst hr; exact hoff
      · intro r hr
        simp only [IRInstruction.dstRegs, List.mem_map, List.mem_range] at hr
        obtain ⟨i, hi, rfl⟩ := hr
        exact (hvals i hi).1
      · intro i hi
        exact (hvals i hi).2
      · intro r hr
        simp only [IRInstruction.dstRegs, List.mem_map, List.mem_range] at hr
        obtain ⟨i, hi, rfl⟩ := hr
        exact hspec i hi
  | store ty values offset addrSpace valueNum dwAligned =>
      simp only [IRInstruction.wellFormed, IRInstruction.storeWellFormed,
        IRInstruction.wellFormedLoadStore, Bool.and_eq_true, List.all_eq_true,
        List.mem_range, IRInstruction.checkRegisterData_eq_true,
        decide_eq_true_eq] at h
      obtain ⟨_, ⟨⟨⟨hoff, htup⟩, hvals⟩, _⟩⟩ := h
      refine ⟨⟨?_, ?_⟩, ?_, htup, ?_⟩
      · intro r hr
        simp only [IRInstruction.srcRegs, List.mem_cons, List.mem_map,
          List.mem_range] at hr
        rcases hr with rfl | ⟨i, hi, rfl⟩
        · exact hoff
        · exact (hvals i hi).1
      · intro r hr; simp [IRInstruction.dstRegs] at hr
      · intro i hi
        exact (hvals i hi).2
      · intro r hr; simp [IRInstruction.dstRegs] at hr
  | sample =>
      refine ⟨⟨?_, ?_⟩, trivial, trivial, ?_⟩ <;>
        intro r hr <;> simp [IRInstruction.srcRegs, IRInstruction.dstRegs] at hr
  | typedWrite =>
      refine ⟨⟨?_, ?_⟩, trivial, trivial, ?_⟩ <;>
        intro r hr <;> simp [IRInstruction.srcRegs, IRInstruction.dstRegs] at hr
  | loadImm ty dst immediateIndex =>
      simp only [IRInstruction.wellFormed, IRInstruction.loadImmWellFormed,
        Bool.and_eq_true, IRInstruction.checkRegisterData_eq_true,
        IRInstruction.checkSpecialRegForWrite_eq_true, decide_eq_true_eq] at h
      obtain ⟨⟨⟨⟨himm, _⟩, hsp⟩, hdst⟩, _⟩ := h
      refine ⟨⟨?_, ?_⟩, hdst.2, himm, ?_⟩
      · intro r hr; simp [IRInstruction.srcRegs] at hr
      · intro r hr
        simp only [IRInstruction.dstRegs, List.mem_singleton] at hr
        subst hr; exact hdst.1
      · intro r hr
        simp only [IRInstruction.dstRegs, List.mem_singleton] at hr
        subst hr; exact hsp
  | sync parameters =>
      refine ⟨⟨?_, ?_⟩, trivial, trivial, ?_⟩ <;>
        intro r hr <;> simp [IRInstruction.srcRegs, IRInstruction.dstRegs] at hr
  | label labelIndex =>
      simp only [IRInstruction.wellFormed, IRInstruction.labelWellFormed,
        decide_eq_true_eq] at h
      refine ⟨⟨?_, ?_⟩, trivial, h, ?_⟩ <;>
        intro r hr <;> simp [IRInstruction.srcRegs, IRInstruction.dstRegs] at hr

/-- Witness for `wellFormed_sound` on a concrete compare instruction. -/
theorem wellFormed_sound_witness :
    IRInstruction.wellFormed
      ⟨[FAMILY_BOOL, FAMILY_DWORD, FAMILY_DWORD], [], [], 0, 0, 0⟩
      (.compare TYPE_FLOAT 0 1 2) = true ∧
    (IRInstruction.RegsInBounds
        ⟨[FAMILY_BOOL, FAMILY_DWORD, FAMILY_DWORD], [], [], 0, 0, 0⟩
        (.compare TYPE_FLOAT 0 1 2) ∧
     IRInstruction.FamiliesOk
        ⟨[FAMILY_BOOL, FAMILY_DWORD, FAMILY_DWORD], [], [], 0, 0, 0⟩
        (.compare TYPE_FLOAT 0 1 2) ∧
     IRInstruction.IndicesOk
        ⟨[FAMILY_BOOL, FAMILY_DWORD, FAMILY_DWORD], [], [], 0, 0, 0⟩
        (.compare TYPE_FLOAT 0 1 2) ∧
     IRInstruction.SpecialWriteOk
        ⟨[FAMILY_BOOL, FAMILY_DWORD, FAMILY_DWORD], [], [], 0, 0, 0⟩
        (.compare TYPE_FLOAT 0 1 2)) :=
  ⟨by decide, wellFormed_sound _ _ (by decide)⟩

/-- Claim C6: the sync instruction's well-formedness check fails exactly on a
zero scope mask or one strictly above the OR of the five defined scope bits
(= 31), and succeeds on every mask in between. -/
theorem syncWellFormed_false_iff (p : Nat) (hp : p < 2 ^ 32) :
    IRInstruction.syncWellFormed p = false ↔ p = 0 ∨ 31 < p := by
  by_cases h31 : 31 < p <;> by_cases h0 : p = 0 <;>
    simp [IRInstruction.syncWellFormed, IRInstruction.SYNC_WORKGROUP_EXEC,
      IRInstruction.SYNC_LOCAL_READ_FENCE, IRInstruction.SYNC_LOCAL_WRITE_FENCE,
      IRInstruction.SYNC_GLOBAL_READ_FENCE, IRInstruction.SYNC_GLOBAL_WRITE_FENCE,
      h31, h0]

/-- Witness for `syncWellFormed_false_iff` at mask 5. -/
theorem syncWellFormed_false_iff_witness :
    (5 : Nat) < 2 ^ 32 ∧
      (IRInstruction.syncWellFormed 5 = false ↔ (5 : Nat) = 0 ∨ 31 < (5 : Nat)) :=
  ⟨by norm_num, syncWellFormed_false_iff 5 (by norm_num)⟩

/-! ## The code-generation strategy loop (backend/gen_program.cpp) -/

/-- The fixed strategy table `codeGenStrategy`
(SIMD width, limitRegisterPressure). -/
def codeGenStrategy : List (Nat × Bool) :=
  [(16, false), (16, true), (8, false), (8, true)]

/-- The slice of the strategy table that `GenProgram::compileKernel` actually
iterates over: the loop starts at index 2 when the pinned width is 8 and
always stops before `codeGenNum`, which is 2 whenever the width is pinned
(non-zero) and 4 otherwise. -/
def strategyWindow (simdWidth0 : Nat) : List (Nat × Bool) :=
  let codeGenNum : Nat := if simdWidth0 ≠ 0 then 2 else 4
  let start : Nat := if simdWidth0 = 8 then 2 else 0
  (codeGenStrategy.drop start).take (codeGenNum - start)

/-- The retry loop body: try each strategy in order, stopping at the first one
whose compilation returns a kernel.  Returns the list of attempted strategies
together with the resulting kernel (if any). -/
def tryStrategies {α : Type} (compile : Nat → Bool → Option α) :
    List (Nat × Bool) → List (Nat × Bool) × Option α
  | [] => ([], none)
  | s :: rest =>
    match compile s.1 s.2 with
    | some k => ([s], some k)
    | none =>
      let r := tryStrategies compile rest
      (s :: r.1, r.2)

/-- `GenProgram::compileKernel`, abstracted over the per-strategy compilation
(`GenContext::compileKernel`): the kernel produced, if any. -/
def compileKernel {α : Type} (simdWidth0 : Nat)
    (compile : Nat → Bool → Option α) : Option α :=
  (tryStrategies compile (strategyWindow simdWidth0)).2

/-- The strategies `GenProgram::compileKernel` attempts, in order. -/
def compileKernelAttempts {α : Type} (simdWidth0 : Nat)
    (compile : Nat → Bool → Option α) : List (Nat × Bool) :=
  (tryStrategies compile (strategyWindow simdWidth0)).1

/-- Claim C1 (failing part): with the SIMD width pinned to 8 the strategy loop
attempts no strategy at all — the loop index starts at 2 with bound 2 — and
returns no kernel even when every strategy would compile; with the width
pinned to 16 or left free the loop does try strategies in the fixed table
order and stops at the first success. -/
theorem compileKernel_pinned8_attempts_nothing :
    compileKernelAttempts 8 (fun w limit => some (w, limit)) = [] ∧
    compileKernel 8 (fun w limit => some (w, limit)) = none ∧
    compileKernelAttempts 16 (fun w limit => some (w, limit)) = [(16, false)] ∧
    compileKernel 16 (fun w limit => some (w, limit)) = some (16, false) ∧
    compileKernelAttempts 0 (fun w limit => some (w, limit)) = [(16, false)] ∧
    compileKernelAttempts 0 (fun w limit => if w = 16 then none else some (w, limit)) =
      [(16, false), (16, true), (8, false)] ∧
    compileKernel 0 (fun w limit => if w = 16 then none else some (w, limit)) =
      some (8, false) ∧
    compileKernelAttempts 0 (fun _ _ => (none : Option Nat)) = codeGenStrategy := by
  refine ⟨rfl, rfl, rfl, rfl, rfl, rfl, rfl, rfl⟩

/-! ## Label sorting and the CFG (ir/function.cpp) -/

/-- The layout data of `ir::Function` used by `sortLabels` and `computeCFG`:
the ordered basic blocks (each a list of instructions) and the label table
(label index to block, a block being named by its position). -/
structure FnBody where
  blocks : List (List IRInstruction)
  labels : List (Option Nat)
deriving Repr

/-- Generic accumulating map (the shape of `foreachInstruction` with the
captured mutable state of `sortLabels`). -/
def mapAccumList {σ α β : Type} (f : σ → α → σ × β) : σ → List α → σ × List β
  | s, [] => (s, [])
  | s, a :: as =>
    let sb := f s a
    let r := mapAccumList f sb.1 as
    (r.1, sb.2 :: r.2)

/-- `map::insert` semantics: keep the existing binding if the key is present. -/
def insertIfAbsent (m : List (Nat × Nat)) (k v : Nat) : List (Nat × Nat) :=
  if (m.lookup k).isSome then m else (k, v) :: m

/-- First pass of `Function::sortLabels`: replace each label instruction with a
freshly numbered one (`last` is incremented per label instruction even when the
map already holds the old index, exactly as `labelMap.insert(...last++)`
does). -/
def relabelInsn (st : Nat × List (Nat × Nat)) (insn : IRInstruction) :
    (Nat × List (Nat × Nat)) × IRInstruction :=
  match insn with
  | .label old => ((st.1 + 1, insertIfAbsent st.2 old st.1), .label st.1)
  | i => (st, i)

/-- Second pass of `Function::sortLabels`: patch every branch through the
old-to-new label map; a branch whose target is absent from the map makes the
source dereference `map::end()`, which we surface as `none`. -/
def patchInsn (m : List (Nat × Nat)) : IRInstruction → Option IRInstruction
  | .bra old pred => (m.lookup old).map (fun new => IRInstruction.bra new pred)
  | i => some i

/-- Fallible map over a list (explicit `Option`-monad traversal). -/
def mapOption {α β : Type} (f : α → Option β) : List α → Option (List β)
  | [] => some []
  | a :: as =>
    match f a, mapOption f as with
    | some b, some bs => some (b :: bs)
    | _, _ => none

/-- `labels.resize(last)`: shrink or grow, new slots value-initialized;
surviving old slots keep their (stale) content. -/
def resizeLabels (labels : List (Option Nat)) (last : Nat) : List (Option Nat) :=
  labels.take last ++ List.replicate (last - labels.length) none

/-- Third pass of `Function::sortLabels`: map each block's first label back to
the block.  The source casts the first instruction to a label, so a block that
is empty or does not start with a label is undefined behaviour; we surface it
as `none`. -/
def assignLabelsGo (labels : List (Option Nat)) (b0 : Nat) :
    List (List IRInstruction) → Option (List (Option Nat))
  | [] => some labels
  | blk :: rest =>
    match blk.head? with
    | some (.label i) => assignLabelsGo (labels.set i (some b0)) (b0 + 1) rest
    | _ => none

/-- The old-to-new label map that `sortLabels` builds in its first pass. -/
def sortLabelsMap (fb : FnBody) : List (Nat × Nat) :=
  (mapAccumList (mapAccumList relabelInsn) (0, []) fb.blocks).1.2

/-- The number of labels counted by `sortLabels`' first pass (the final value
of `last`). -/
def sortLabelsLast (fb : FnBody) : Nat :=
  (mapAccumList (mapAccumList relabelInsn) (0, []) fb.blocks).1.1

/-- `Function::sortLabels`. -/
def sortLabels (fb : FnBody) : Option FnBody :=
  let st := mapAccumList (mapAccumList relabelInsn) (0, []) fb.blocks
  let last := st.1.1
  let m := st.1.2
  match mapOption (fun blk => mapOption (patchInsn m) blk) st.2 with
  | none => none
  | some blocks2 =>
    match assignLabelsGo (resizeLabels fb.labels last) 0 blocks2 with
    | none => none
    | some labels2 => some ⟨blocks2, labels2⟩

/-- The label indices carried by the label instructions of a list, in order. -/
def labelIndicesOf (l : List IRInstruction) : List Nat :=
  l.filterMap (fun i => match i with | .label k => some k | _ => none)

/-- Is the instruction a label? -/
def isLabelI : IRInstruction → Bool
  | .label _ => true
  | _ => false

/-- Is the instruction a member of the `BranchInstruction` class? -/
def isBranchI : IRInstruction → Bool
  | .bra _ _ => true
  | .ret => true
  | _ => false

/-! ## `Function::computeCFG` -/

/-- Successor and predecessor sets per block (blocks named by position). -/
structure CFG where
  succ : Nat → Finset Nat
  pred : Nat → Finset Nat

def emptyCFG : CFG := ⟨fun _ => ∅, fun _ => ∅⟩

/-- `target->predecessors.insert(&bb); bb.successors.insert(target);` -/
def insertEdge (cfg : CFG) (a b : Nat) : CFG :=
  ⟨fun x => if x = a then insert b (cfg.succ a) else cfg.succ x,
   fun x => if x = b then insert a (cfg.pred b) else cfg.pred x⟩

/-- Consume a pending fall-through (`jumpToNext`) on entering block `b`. -/
def cfgConsume (cfg : CFG) (j : Option Nat) (b : Nat) : CFG :=
  match j with
  | some a => insertEdge cfg a b
  | none => cfg

/-- The per-block body of `computeCFG`'s second loop, after the pending
fall-through was consumed: an empty block contributes nothing; a block whose
last instruction is not a branch becomes a pending fall-through; an `OP_BRA`
adds the edge to `blocks[label]` and stays pending iff predicated; an `OP_RET`
(a branch without label) adds nothing. -/
def cfgBlockStep (cfg : CFG) (b : Nat) (blk : List IRInstruction) :
    CFG × Option Nat :=
  match blk.getLast? with
  | none => (cfg, none)
  | some (.bra t pred) =>
      (insertEdge cfg b t, if pred.isSome then some b else none)
  | some .ret => (cfg, none)
  | some _ => (cfg, some b)

/-- The fold of `computeCFG` over the remaining blocks, `b0` being the index
of the first block of `l` and `j` the pending fall-through source. -/
def cfgGo (cfg : CFG) (j : Option Nat) (b0 : Nat) :
    List (List IRInstruction) → CFG
  | [] => cfg
  | blk :: rest =>
    let cfg1 := cfgConsume cfg j b0
    let step := cfgBlockStep cfg1 b0 blk
    cfgGo step.1 step.2 (b0 + 1) rest

/-- `Function::computeCFG`: the successor/predecessor sets are rebuilt from
scratch (the previous sets are cleared and never read). -/
def computeCFG (blocks : List (List IRInstruction)) : CFG :=
  cfgGo emptyCFG none 0 blocks

/-- The branch-target contribution of a block's last instruction. -/
def targetSet (blk : List IRInstruction) : Finset Nat :=
  match blk.getLast? with
  | some (.bra t _) => {t}
  | _ => ∅

/-- Does the block leave a pending fall-through to the next block? -/
def fallsThrough (blk : List IRInstruction) : Bool :=
  match blk.getLast? with
  | none => false
  | some (.bra _ pred) => pred.isSome
  | some .ret => false
  | some _ => true

theorem insertEdge_succ (cfg : CFG) (a b x : Nat) :
    (insertEdge cfg a b).succ x =
      if x = a then insert b (cfg.succ a) else cfg.succ x := rfl

/-- Characterization of one block step: its successor set gains the branch
target, other blocks' sets are untouched, and the pending fall-through is
`some b0` exactly when the block falls through. -/
theorem cfgBlockStep_char (cfg : CFG) (b0 : Nat) (blk : List IRInstruction) :
    (cfgBlockStep cfg b0 blk).1.succ b0 = targetSet blk ∪ cfg.succ b0 ∧
    (cfgBlockStep cfg b0 blk).2 = (if fallsThrough blk then some b0 else none) ∧
    (∀ x, x ≠ b0 → (cfgBlockStep cfg b0 blk).1.succ x = cfg.succ x) := by
  unfold cfgBlockStep targetSet fallsThrough
  cases h : blk.getLast? with
  | none => simp
  | some i =>
      cases i
      case bra t pred =>
        cases pred with
        | none =>
            refine ⟨by simp [insertEdge, Finset.insert_eq], by simp, ?_⟩
            intro x hx
            simp [insertEdge, hx]
        | some p =>
            refine ⟨by simp [insertEdge, Finset.insert_eq], by simp, ?_⟩
            intro x hx
            simp [insertEdge, hx]
      all_goals exact ⟨by simp, by simp, fun x hx => by simp⟩

theorem cfgConsume_succ (cfg : CFG) (j : Option Nat) (b0 x : Nat)
    (hj : ∀ a, j = some a → a ≠ x) :
    (cfgConsume cfg j b0).succ x = cfg.succ x := by
  cases j with
  | none => rfl
  | some a =>
      simp only [cfgConsume, insertEdge_succ]
      rw [if_neg]
      intro hax
      exact hj a rfl hax.symm

/-- Blocks strictly below the fold's start index only ever receive the single
pending fall-through edge. -/
theorem cfgGo_succ_low (l : List (List IRInstruction)) :
    ∀ (cfg : CFG) (j : Option Nat) (b0 x : Nat), x < b0 →
    (∀ a, j = some a → a < b0) →
    (cfgGo cfg j b0 l).succ x =
      if j = some x ∧ l ≠ [] then insert b0 (cfg.succ x) else cfg.succ x := by
  induction l with
  | nil => intro cfg j b0 x _ _; simp [cfgGo]
  | cons blk rest ih =>
      intro cfg j b0 x hx hj
      show (cfgGo (cfgBlockStep (cfgConsume cfg j b0) b0 blk).1
        (cfgBlockStep (cfgConsume cfg j b0) b0 blk).2 (b0 + 1) rest).succ x = _
      rw [ih _ _ _ _ (Nat.lt_succ_of_lt hx) ?hjnext]
      case hjnext =>
        intro a ha
        rcases (cfgBlockStep_char (cfgConsume cfg j b0) b0 blk).2.1 ▸ ha with h
        split at h
        · cases h; exact Nat.lt_succ_self b0
        · cases h
      have hx0 : x ≠ b0 := Nat.ne_of_lt hx
      rw [if_neg ?hne]
      case hne =>
        rintro ⟨h1, -⟩
        rw [(cfgBlockStep_char (cfgConsume cfg j b0) b0 blk).2.1] at h1
        split at h1
        · cases h1; exact hx0 rfl
        · cases h1
      rw [(cfgBlockStep_char (cfgConsume cfg j b0) b0 blk).2.2 x hx0]
      cases j with
      | none => simp [cfgConsume]
      | some a =>
          simp only [cfgConsume, insertEdge_succ, ne_eq, Option.some_inj]
          by_cases hax : x = a
          · subst hax
            simp
          · rw [if_neg hax, if_neg (by rintro ⟨h1, -⟩; exact hax h1.symm)]

/-- Main successor characterization of the `computeCFG` fold: block `b0 + k`
ends with the branch-target set of its own last instruction plus the
fall-through edge to the next block when it falls through and a next block
exists. -/
theorem cfgGo_succ_main (l : List (List IRInstruction)) :
    ∀ (cfg : CFG) (j : Option Nat) (b0 k : Nat), k < l.length →
    (∀ a, j = some a → a < b0) →
    (cfgGo cfg j b0 l).succ (b0 + k) =
      cfg.succ (b0 + k) ∪ targetSet (l.getD k []) ∪
        (if fallsThrough (l.getD k []) = true ∧ k + 1 < l.length
         then {b0 + k + 1} else ∅) := by
  induction l with
  | nil => intro cfg j b0 k hk; exact absurd hk (by simp)
  | cons blk rest ih =>
      intro cfg j b0 k hk hj
      show (cfgGo (cfgBlockStep (cfgConsume cfg j b0) b0 blk).1
        (cfgBlockStep (cfgConsume cfg j b0) b0 blk).2 (b0 + 1) rest).succ (b0 + k) = _
      have hcons : (cfgConsume cfg j b0).succ b0 = cfg.succ b0 :=
        cfgConsume_succ cfg j b0 b0 (fun a ha hax => absurd (hax ▸ hj a ha) (lt_irrefl b0))
      cases k with
      | zero =>
          rw [cfgGo_succ_low rest _ _ _ _ (by omega) ?hjn]
          case hjn =>
            intro a ha
            rw [(cfgBlockStep_char (cfgConsume cfg j b0) b0 blk).2.1] at ha
            split at ha
            · cases ha; omega
            · cases ha
          rw [(cfgBlockStep_char (cfgConsume cfg j b0) b0 blk).2.1]
          simp only [Nat.add_zero, List.getD_cons_zero, List.length_cons]
          by_cases hf : fallsThrough blk = true
          · by_cases hr : rest = []
            · subst hr
              simp only [hf, if_true, List.length_nil]
              rw [if_neg (by simp), if_neg (by omega)]
              rw [(cfgBlockStep_char (cfgConsume cfg j b0) b0 blk).1, hcons]
              simp [Finset.union_comm]
            · rw [if_pos ⟨by simp [hf], hr⟩, if_pos ⟨hf, by
                have := List.length_pos.mpr hr; omega⟩]
              rw [(cfgBlockStep_char (cfgConsume cfg j b0) b0 blk).1, hcons]
              ext y
              simp [Finset.mem_insert, Finset.mem_union]
              tauto
          · rw [if_neg (by simp [hf]), if_neg (by tauto)]
            rw [(cfgBlockStep_char (cfgConsume cfg j b0) b0 blk).1, hcons]
            simp [Finset.union_comm]
      | succ k' =>
          have hk' : k' < rest.length := by simpa using hk
          have harith : b0 + (k' + 1) = (b0 + 1) + k' := by omega
          rw [harith, ih _ _ _ _ hk' ?hjn]
          case hjn =>
            intro a ha
            rw [(cfgBlockStep_char (cfgConsume cfg j b0) b0 blk).2.1] at ha
            split at ha
            · cases ha; omega
            · cases ha
          have hne : (b0 + 1) + k' ≠ b0 := by omega
          rw [(cfgBlockStep_char (cfgConsume cfg j b0) b0 blk).2.2 _ hne]
          rw [cfgConsume_succ cfg j b0 _ (fun a ha hax => by
            have := hj a ha; omega)]
          simp only [List.getD_cons_succ, List.length_cons]
          have h2 : (b0 + 1) + k' + 1 = b0 + (k' + 1) + 1 := by omega


          rw [h2]
          have h3 : (k' + 1 < rest.length) = (k' + 1 + 1 < rest.length + 1) := by
            simp [Nat.succ_lt_succ_iff]
          by_cases hc : fallsThrough (rest.getD k' []) = true ∧ k' + 1 < rest.length
          · rw [if_pos hc, if_pos ⟨hc.1, by omega⟩]
          · rw [if_neg hc, if_neg (by
              rintro ⟨hf, hlen⟩
              exact hc ⟨hf, by omega⟩)]

/-- Successor/predecessor converse invariant. -/
def CFGConverse (cfg : CFG) : Prop :=
  ∀ a b, b ∈ cfg.succ a ↔ a ∈ cfg.pred b

theorem insertEdge_converse {cfg : CFG} (h : CFGConverse cfg) (a b : Nat) :
    CFGConverse (insertEdge cfg a b) := by
  intro x y
  simp only [insertEdge]
  by_cases hx : x = a <;> by_cases hy : y = b <;>
    simp [hx, hy, Finset.mem_insert, h x y, ← h a y, ← h x b, h a b]

theorem cfgBlockStep_converse {cfg : CFG} (h : CFGConverse cfg) (b0 : Nat)
    (blk : List IRInstruction) : CFGConverse (cfgBlockStep cfg b0 blk).1 := by
  unfold cfgBlockStep
  cases hl : blk.getLast? with
  | none => exact h
  | some i => cases i <;> first
      | exact h
      | exact insertEdge_converse h _ _

theorem cfgGo_converse (l : List (List IRInstruction)) :
    ∀ (cfg : CFG) (j : Option Nat) (b0 : Nat), CFGConverse cfg →
    CFGConverse (cfgGo cfg j b0 l) := by
  induction l with
  | nil => intro cfg j b0 h; exact h
  | cons blk rest ih =>
      intro cfg j b0 h
      apply ih
      apply cfgBlockStep_converse
      cases j with
      | none => exact h
      | some a => exact insertEdge_converse h _ _

/-- Claim C9: after `computeCFG`, a non-empty block not ending in a branch has
exactly the textually next block as successor, a block ending in an
unpredicated `OP_BRA` has exactly the branch target, a block ending in a
predicated `OP_BRA` has both the target and the next block, and the
predecessor sets are the exact converse of the successor sets. -/
theorem computeCFG_correct (blocks : List (List IRInstruction)) :
    (∀ b i, b + 1 < blocks.length →
       (blocks.getD b []).getLast? = some i → isBranchI i = false →
       (computeCFG blocks).succ b = {b + 1}) ∧
    (∀ b t, b < blocks.length →
       (blocks.getD b []).getLast? = some (.bra t none) →
       (computeCFG blocks).succ b = {t}) ∧
    (∀ b t p, b + 1 < blocks.length →
       (blocks.getD b []).getLast? = some (.bra t (some p)) →
       (computeCFG blocks).succ b = {t} ∪ {b + 1}) ∧
    (∀ a b, b ∈ (computeCFG blocks).succ a ↔ a ∈ (computeCFG blocks).pred b) := by
  have hmain : ∀ k, k < blocks.length →
      (computeCFG blocks).succ k =
        targetSet (blocks.getD k []) ∪
          (if fallsThrough (blocks.getD k []) = true ∧ k + 1 < blocks.length
           then {k + 1} else ∅) := by
    intro k hk
    have := cfgGo_succ_main blocks emptyCFG none 0 k hk (by intro a ha; cases ha)
    simpa [computeCFG, emptyCFG] using this
  refine ⟨?_, ?_, ?_, ?_⟩
  · intro b i hb hlast hbr
    rw [hmain b (by omega)]
    have htar : targetSet (blocks.getD b []) = ∅ := by
      unfold targetSet
      rw [hlast]
      cases i <;> simp_all [isBranchI]
    have hft : fallsThrough (blocks.getD b []) = true := by
      unfold fallsThrough
      rw [hlast]
      cases i <;> simp_all [isBranchI]
    rw [htar, hft, if_pos ⟨rfl, hb⟩]
    simp
  · intro b t hb hlast
    rw [hmain b hb]
    have htar : targetSet (blocks.getD b []) = {t} := by
      unfold targetSet; rw [hlast]
    have hft : fallsThrough (blocks.getD b []) = false := by
      unfold fallsThrough; rw [hlast]; rfl
    rw [htar, hft]
    simp
  · intro b t p hb hlast
    rw [hmain b (by omega)]
    have htar : targetSet (blocks.getD b []) = {t} := by
      unfold targetSet; rw [hlast]
    have hft : fallsThrough (blocks.getD b []) = true := by
      unfold fallsThrough; rw [hlast]; rfl
    rw [htar, hft, if_pos ⟨rfl, hb⟩]
  · exact cfgGo_converse blocks emptyCFG none 0 (by intro a b; simp [emptyCFG])

/-- Witness for `computeCFG_correct` on a three block function:
fall-through block, predicated backward branch, return block. -/
theorem computeCFG_correct_witness :
    (computeCFG [[.label 0, .compare TYPE_S32 0 1 2],
       [.label 1, .bra 0 (some 4)], [.label 2, .ret]]).succ 0 = {1} ∧
    (computeCFG [[.label 0, .compare TYPE_S32 0 1 2],
       [.label 1, .bra 0 (some 4)], [.label 2, .ret]]).succ 1 = {0} ∪ {2} ∧
    ((2 : Nat) ∈ (computeCFG [[.label 0, .compare TYPE_S32 0 1 2],
       [.label 1, .bra 0 (some 4)], [.label 2, .ret]]).succ 1 ↔
     (1 : Nat) ∈ (computeCFG [[.label 0, .compare TYPE_S32 0 1 2],
       [.label 1, .bra 0 (some 4)], [.label 2, .ret]]).pred 2) :=
  ⟨(computeCFG_correct _).1 0 (.compare TYPE_S32 0 1 2) (by decide) (by decide)
      (by decide),
   (computeCFG_correct _).2.2.1 1 0 4 (by decide) (by decide),
   (computeCFG_correct _).2.2.2 1 2⟩

/-! ### Properties of `sortLabels` -/

def countLabels (l : List IRInstruction) : Nat := (labelIndicesOf l).length

theorem labelIndicesOf_label_cons (k : Nat) (l : List IRInstruction) :
    labelIndicesOf (.label k :: l) = k :: labelIndicesOf l := rfl

theorem labelIndicesOf_other_cons {i : IRInstruction} (h : isLabelI i = false)
    (l : List IRInstruction) : labelIndicesOf (i :: l) = labelIndicesOf l := by
  cases i
  case label k => simp [isLabelI] at h
  all_goals rfl

theorem countLabels_label_cons (k : Nat) (l : List IRInstruction) :
    countLabels (.label k :: l) = countLabels l + 1 := by
  simp [countLabels, labelIndicesOf_label_cons]

theorem countLabels_other_cons {i : IRInstruction} (h : isLabelI i = false)
    (l : List IRInstruction) : countLabels (i :: l) = countLabels l := by
  simp [countLabels, labelIndicesOf_other_cons h]

theorem mapAccumList_cons {σ α β : Type} (f : σ → α → σ × β) (s : σ) (a : α)
    (as : List α) :
    mapAccumList f s (a :: as) =
      ((mapAccumList f (f s a).1 as).1,
       (f s a).2 :: (mapAccumList f (f s a).1 as).2) := rfl

theorem relabelInsn_label (st : Nat × List (Nat × Nat)) (old : Nat) :
    relabelInsn st (.label old) =
      ((st.1 + 1, insertIfAbsent st.2 old st.1), .label st.1) := rfl

theorem relabelInsn_other {st : Nat × List (Nat × Nat)} {i : IRInstruction}
    (h : isLabelI i = false) : relabelInsn st i = (st, i) := by
  cases i
  case label k => simp [isLabelI] at h
  all_goals rfl

theorem relabel_spec (l : List IRInstruction) :
    ∀ c m,
      (mapAccumList relabelInsn (c, m) l).1.1 = c + countLabels l ∧
      labelIndicesOf (mapAccumList relabelInsn (c, m) l).2 =
        List.range' c (countLabels l) ∧
      (mapAccumList relabelInsn (c, m) l).2.length = l.length := by
  induction l with
  | nil =>
      intro c m
      simp [mapAccumList, countLabels, labelIndicesOf]
  | cons i l ih =>
      intro c m
      cases i with
      | label old =>
          obtain ⟨ih1, ih2, ih3⟩ := ih (c + 1) (insertIfAbsent m old c)
          simp only [mapAccumList_cons, relabelInsn_label]
          refine ⟨?_, ?_, ?_⟩
          · rw [countLabels_label_cons]
            rw [ih1]
            omega
          · rw [labelIndicesOf_label_cons, countLabels_label_cons, ih2,
              List.range'_succ]
          · simp [ih3]
      | _ =>
          obtain ⟨ih1, ih2, ih3⟩ := ih c m
          refine ⟨?_, ?_, ?_⟩
          · simpa [mapAccumList_cons, relabelInsn, countLabels, labelIndicesOf,
              List.filterMap_cons] using ih1
          · simpa [mapAccumList_cons, relabelInsn, countLabels, labelIndicesOf,
              List.filterMap_cons] using ih2
          · simpa [mapAccumList_cons, relabelInsn] using ih3

theorem relabel_bra (l : List IRInstruction) :
    ∀ c m k old pred, l.getD k .ret = .bra old pred →
      (mapAccumList relabelInsn (c, m) l).2.getD k .ret = .bra old pred := by
  induction l with
  | nil =>
      intro c m k old pred h
      simp [List.getD] at h
  | cons i l ih =>
      intro c m k old pred h
      cases k with
      | zero =>
          rw [List.getD_cons_zero] at h
          subst h
          simp [mapAccumList_cons, relabelInsn]
      | succ k' =>
          rw [List.getD_cons_succ] at h
          simp only [mapAccumList_cons, List.getD_cons_succ]
          exact ih _ _ _ _ _ h

theorem relabel_head_label (l : List IRInstruction) (c : Nat)
    (m : List (Nat × Nat)) (j : Nat) (h : l.head? = some (.label j)) :
    (mapAccumList relabelInsn (c, m) l).2.head? = some (.label c) := by
  cases l with
  | nil => simp at h
  | cons i l =>
      rw [List.head?_cons, Option.some_inj] at h
      subst h
      simp [mapAccumList_cons, relabelInsn_label]

theorem relabel_head_rev (l : List IRInstruction) (c : Nat)
    (m : List (Nat × Nat)) (x : Nat)
    (h : (mapAccumList relabelInsn (c, m) l).2.head? = some (.label x)) :
    ∃ j, l.head? = some (.label j) := by
  cases l with
  | nil => simp [mapAccumList] at h
  | cons i l =>
      cases i
      case label old => exact ⟨old, rfl⟩
      all_goals simp [mapAccumList_cons, relabelInsn] at h

theorem relabelB_spec (bs : List (List IRInstruction)) :
    ∀ c m,
      (mapAccumList (mapAccumList relabelInsn) (c, m) bs).1.1 =
        c + countLabels bs.flatten ∧
      labelIndicesOf
          (mapAccumList (mapAccumList relabelInsn) (c, m) bs).2.flatten =
        List.range' c (countLabels bs.flatten) ∧
      (mapAccumList (mapAccumList relabelInsn) (c, m) bs).2.length = bs.length := by
  induction bs with
  | nil =>
      intro c m
      simp [mapAccumList, countLabels, labelIndicesOf]
  | cons blk bs ih =>
      intro c m
      obtain ⟨h1, h2, h3⟩ := relabel_spec blk c m
      obtain ⟨ih1, ih2, ih3⟩ :=
        ih (mapAccumList relabelInsn (c, m) blk).1.1
          (mapAccumList relabelInsn (c, m) blk).1.2
      have hcnt : countLabels ((blk :: bs).flatten) =
          countLabels blk + countLabels bs.flatten := by
        simp [countLabels, labelIndicesOf, List.filterMap_append]
      simp only [mapAccumList_cons]
      refine ⟨?_, ?_, ?_⟩
      · rw [ih1, h1, hcnt]
        omega
      · show labelIndicesOf ((mapAccumList relabelInsn (c, m) blk).2 ++
          (mapAccumList (mapAccumList relabelInsn)
            (mapAccumList relabelInsn (c, m) blk).1 bs).2.flatten) = _
        rw [labelIndicesOf, List.filterMap_append]
        rw [show (List.filterMap _ (mapAccumList relabelInsn (c, m) blk).2) =
          labelIndicesOf (mapAccumList relabelInsn (c, m) blk).2 from rfl]
        rw [show (List.filterMap _ (mapAccumList (mapAccumList relabelInsn)
            (mapAccumList relabelInsn (c, m) blk).1 bs).2.flatten) =
          labelIndicesOf (mapAccumList (mapAccumList relabelInsn)
            (mapAccumList relabelInsn (c, m) blk).1 bs).2.flatten from rfl]
        rw [h2, ih2, h1, hcnt]
        have := List.range'_append c (countLabels blk) (countLabels bs.flatten) 1
        simp only [one_mul] at this
        rw [Nat.add_comm (countLabels blk) (countLabels bs.flatten)]
        exact this
      · simp [ih3]

theorem relabelB_bra (bs : List (List IRInstruction)) :
    ∀ c m b k old pred,
      ((bs.getD b []).getD k .ret = .bra old pred) →
      (((mapAccumList (mapAccumList relabelInsn) (c, m) bs).2.getD b []).getD
          k .ret = .bra old pred) := by
  induction bs with
  | nil =>
      intro c m b k old pred h
      simp [List.getD] at h
  | cons blk bs ih =>
      intro c m b k old pred h
      cases b with
      | zero =>
          rw [List.getD_cons_zero] at h
          simp only [mapAccumList_cons, List.getD_cons_zero]
          exact relabel_bra blk c m k old pred h
      | succ b' =>
          rw [List.getD_cons_succ] at h
          simp only [mapAccumList_cons, List.getD_cons_succ]
          exact ih _ _ _ _ _ _ h

theorem relabelB_getD (bs : List (List IRInstruction)) :
    ∀ st b, b < bs.length → ∃ st' : Nat × List (Nat × Nat),
      (mapAccumList (mapAccumList relabelInsn) st bs).2.getD b [] =
        (mapAccumList relabelInsn st' (bs.getD b [])).2 := by
  induction bs with
  | nil => intro st b hb; simp at hb
  | cons blk bs ih =>
      intro st b hb
      cases b with
      | zero =>
          refine ⟨st, ?_⟩
          simp [mapAccumList_cons]
      | succ b' =>
          obtain ⟨st', h⟩ := ih (mapAccumList relabelInsn st blk).1 b'
            (by simpa using hb)
          refine ⟨st', ?_⟩
          simpa [mapAccumList_cons] using h

theorem labelIndicesOf_eq_nil (l : List IRInstruction)
    (h : ∀ insn ∈ l, isLabelI insn = false) : labelIndicesOf l = [] := by
  induction l with
  | nil => rfl
  | cons i l ih =>
      rw [labelIndicesOf_other_cons (h i (List.mem_cons_self _ _))]
      exact ih (fun insn hi => h insn (List.mem_cons_of_mem _ hi))

theorem relabelB_heads (bs : List (List IRInstruction)) :
    ∀ c m,
    (∀ blk ∈ bs, (∃ j, blk.head? = some (.label j)) ∧
        ∀ insn ∈ blk.drop 1, isLabelI insn = false) →
    (∀ b, b < bs.length →
      ((mapAccumList (mapAccumList relabelInsn) (c, m) bs).2.getD b []).head? =
        some (.label (c + b))) ∧
    (mapAccumList (mapAccumList relabelInsn) (c, m) bs).1.1 = c + bs.length := by
  induction bs with
  | nil =>
      intro c m _
      exact ⟨fun b hb => absurd hb (by simp), by simp [mapAccumList]⟩
  | cons blk bs ih =>
      intro c m hb
      obtain ⟨⟨j, hj⟩, htail⟩ := hb blk (List.mem_cons_self _ _)
      have hblk : blk = .label j :: blk.drop 1 := by
        cases blk with
        | nil => simp at hj
        | cons i l =>
            rw [List.head?_cons, Option.some_inj] at hj
            subst hj; rfl
      have hcnt : countLabels blk = 1 := by
        rw [hblk, countLabels_label_cons]
        have h0 : labelIndicesOf (List.drop 1 blk) = [] :=
          labelIndicesOf_eq_nil _ htail
        simp only [List.drop_one] at h0
        simp [countLabels, h0]
      obtain ⟨h1, _, _⟩ := relabel_spec blk c m
      rw [hcnt] at h1
      obtain ⟨ihA, ihB⟩ := ih (mapAccumList relabelInsn (c, m) blk).1.1
        (mapAccumList relabelInsn (c, m) blk).1.2
        (fun b hbm => hb b (List.mem_cons_of_mem _ hbm))
      constructor
      · intro b hbb
        cases b with
        | zero =>
            simp only [mapAccumList_cons, List.getD_cons_zero, Nat.add_zero]
            exact relabel_head_label blk c m j hj
        | succ b' =>
            simp only [mapAccumList_cons, List.getD_cons_succ]
            rw [show c + (b' + 1) =
              (mapAccumList relabelInsn (c, m) blk).1.1 + b' from by
                rw [h1]; omega]
            exact ihA b' (by simpa using hbb)
      · simp only [mapAccumList_cons, List.length_cons]
        rw [show c + (bs.length + 1) =
          (mapAccumList relabelInsn (c, m) blk).1.1 + bs.length from by
            rw [h1]; omega]
        exact ihB

/-! ### Properties of the patch pass -/

theorem mapOption_some_cons {α β : Type} {f : α → Option β} {a : α}
    {as : List α} {l2 : List β} (h : mapOption f (a :: as) = some l2) :
    ∃ b bs, f a = some b ∧ mapOption f as = some bs ∧ l2 = b :: bs := by
  unfold mapOption at h
  cases hfa : f a with
  | none => rw [hfa] at h; cases h
  | some b =>
      rw [hfa] at h
      cases hrest : mapOption f as with
      | none => rw [hrest] at h; cases h
      | some bs =>
          rw [hrest] at h
          exact ⟨b, bs, rfl, rfl, (Option.some_inj.mp h).symm⟩

/-- `patchInsn` preserves instruction kind: labels stay themselves, non-labels
stay non-labels. -/
theorem patchInsn_label_iff {m : List (Nat × Nat)} {i b : IRInstruction}
    (h : patchInsn m i = some b) :
    ∀ x, (i = .label x ↔ b = .label x) := by
  intro x
  cases i
  case bra old pred =>
      simp only [patchInsn, Option.map_eq_some'] at h
      obtain ⟨new, _, hb⟩ := h
      subst hb
      constructor <;> intro hh <;> cases hh
  all_goals (cases h; constructor <;> intro hh <;> exact hh)

theorem patch_pointwise (m : List (Nat × Nat)) :
    ∀ (blk blk2 : List IRInstruction),
      mapOption (patchInsn m) blk = some blk2 →
      (∀ k old pred, blk.getD k .ret = .bra old pred →
        ∃ new, m.lookup old = some new ∧ blk2.getD k .ret = .bra new pred) ∧
      labelIndicesOf blk2 = labelIndicesOf blk ∧
      (∀ x, blk.head? = some (.label x) ↔ blk2.head? = some (.label x)) := by
  intro blk
  induction blk with
  | nil =>
      intro blk2 h
      cases h
      refine ⟨?_, rfl, ?_⟩
      · intro k old pred hk; simp [List.getD] at hk
      · intro x; simp
  | cons i blk ih =>
      intro blk2 h
      obtain ⟨b, bs, hfa, hrest, rfl⟩ := mapOption_some_cons h
      obtain ⟨ihA, ihB, ihC⟩ := ih bs hrest
      refine ⟨?_, ?_, ?_⟩
      · intro k old pred hk
        cases k with
        | zero =>
            rw [List.getD_cons_zero] at hk
            subst hk
            simp only [patchInsn, Option.map_eq_some'] at hfa
            obtain ⟨new, hnew, hb⟩ := hfa
            exact ⟨new, hnew, by rw [List.getD_cons_zero, ← hb]⟩
        | succ k' =>
            rw [List.getD_cons_succ] at hk
            rw [List.getD_cons_succ]
            exact ihA k' old pred hk
      · by_cases hl : isLabelI i = true
        · obtain ⟨x, rfl⟩ : ∃ x, i = .label x := by
            cases i <;> simp_all [isLabelI]
          cases hfa
          rw [labelIndicesOf_label_cons, labelIndicesOf_label_cons, ihB]
        · have hl' : isLabelI i = false := by simpa using hl
          have hbl : isLabelI b = false := by
            cases i with
            | bra old pred =>
                simp only [patchInsn, Option.map_eq_some'] at hfa
                obtain ⟨new, hnew, hb⟩ := hfa
                subst hb
                rfl
            | label k => simp [isLabelI] at hl'
            | nary op ty dst srcs => cases hfa; exact hl'
            | select ty dst src => cases hfa; exact hl'
            | compare ty dst s0 s1 => cases hfa; exact hl'
            | convert t1 t2 d s => cases hfa; exact hl'
            | ret => cases hfa; exact hl'
            | load ty vs off sp vn dw => cases hfa; exact hl'
            | store ty vs off sp vn dw => cases hfa; exact hl'
            | sample => cases hfa; exact hl'
            | typedWrite => cases hfa; exact hl'
            | loadImm ty d ii => cases hfa; exact hl'
            | sync p => cases hfa; exact hl'
          rw [labelIndicesOf_other_cons hbl, labelIndicesOf_other_cons hl', ihB]
      · intro x
        rw [List.head?_cons, List.head?_cons, Option.some_inj, Option.some_inj]
        exact patchInsn_label_iff hfa x

theorem mapOption_blocks_pointwise (m : List (Nat × Nat)) :
    ∀ (bs bs2 : List (List IRInstruction)),
      mapOption (fun blk => mapOption (patchInsn m) blk) bs = some bs2 →
      ∀ b, mapOption (patchInsn m) (bs.getD b []) = some (bs2.getD b []) := by
  intro bs
  induction bs with
  | nil =>
      intro bs2 h b
      cases h
      simp [List.getD, mapOption]
  | cons blk bs ih =>
      intro bs2 h b
      obtain ⟨b1, brest, hfa, hrest, rfl⟩ := mapOption_some_cons h
      cases b with
      | zero => simpa [List.getD_cons_zero] using hfa
      | succ b' =>
          simp only [List.getD_cons_succ]
          exact ih brest hrest b'

theorem mapOption_blocks_labels (m : List (Nat × Nat)) :
    ∀ (bs bs2 : List (List IRInstruction)),
      mapOption (fun blk => mapOption (patchInsn m) blk) bs = some bs2 →
      labelIndicesOf bs2.flatten = labelIndicesOf bs.flatten := by
  intro bs
  induction bs with
  | nil => intro bs2 h; cases h; rfl
  | cons blk bs ih =>
      intro bs2 h
      obtain ⟨b1, brest, hfa, hrest, rfl⟩ := mapOption_some_cons h
      show labelIndicesOf (b1 ++ brest.flatten) = labelIndicesOf (blk ++ bs.flatten)
      rw [labelIndicesOf, labelIndicesOf, List.filterMap_append,
        List.filterMap_append]
      have h1 := (patch_pointwise m blk b1 hfa).2.1
      have h2 := ih brest hrest
      rw [show List.filterMap _ b1 = labelIndicesOf b1 from rfl,
        show List.filterMap _ blk = labelIndicesOf blk from rfl,
        show List.filterMap _ brest.flatten = labelIndicesOf brest.flatten from rfl,
        show List.filterMap _ bs.flatten = labelIndicesOf bs.flatten from rfl,
        h1, h2]

theorem mapOption_blocks_length (m : List (Nat × Nat)) :
    ∀ (bs bs2 : List (List IRInstruction)),
      mapOption (fun blk => mapOption (patchInsn m) blk) bs = some bs2 →
      bs2.length = bs.length := by
  intro bs
  induction bs with
  | nil => intro bs2 h; cases h; rfl
  | cons blk bs ih =>
      intro bs2 h
      obtain ⟨b1, brest, _, hrest, rfl⟩ := mapOption_some_cons h
      simp [ih brest hrest]

/-! ### Properties of the label assignment pass -/

theorem assign_heads :
    ∀ (bs : List (List IRInstruction)) (labels : List (Option Nat)) (b0 : Nat)
      (out : List (Option Nat)), assignLabelsGo labels b0 bs = some out →
      ∀ blk ∈ bs, ∃ j, blk.head? = some (.label j) := by
  intro bs
  induction bs with
  | nil => intro labels b0 out _ blk hblk; simp at hblk
  | cons b1 bs ih =>
      intro labels b0 out h blk hblk
      unfold assignLabelsGo at h
      cases hhead : b1.head? with
      | none => rw [hhead] at h; cases h
      | some i =>
          rw [hhead] at h
          cases i <;> try cases h
          case label idx =>
            rcases List.mem_cons.mp hblk with rfl | hmem
            · exact ⟨idx, hhead⟩
            · exact ih _ _ _ h blk hmem

theorem getD_set_opt (l : List (Option Nat)) (i j : Nat) (a : Option Nat) :
    (l.set i a).getD j none =
      if i = j ∧ i < l.length then a else l.getD j none := by
  rw [List.getD_eq_getElem?_getD, List.getD_eq_getElem?_getD, List.getElem?_set]
  by_cases hij : i = j
  · subst hij
    by_cases hl : i < l.length
    · simp [hl]
    · have hnone : l[i]? = none := List.getElem?_eq_none (by omega)
      simp [hl, hnone]
  · simp [hij]

theorem assign_spec :
    ∀ (bs : List (List IRInstruction)) (labels : List (Option Nat)) (b0 : Nat),
      (∀ i, i < bs.length → (bs.getD i []).head? = some (.label (b0 + i))) →
      b0 + bs.length ≤ labels.length →
      ∃ out, assignLabelsGo labels b0 bs = some out ∧
        out.length = labels.length ∧
        ∀ j, out.getD j none =
          if b0 ≤ j ∧ j < b0 + bs.length then some j else labels.getD j none := by
  intro bs
  induction bs with
  | nil =>
      intro labels b0 _ _
      refine ⟨labels, rfl, rfl, ?_⟩
      intro j
      rw [if_neg (by simp only [List.length_nil]; omega)]
  | cons blk bs ih =>
      intro labels b0 hheads hlen
      have hhead0 : blk.head? = some (.label b0) := by
        have := hheads 0 (by simp)
        simpa using this
      obtain ⟨out, hgo, hlenout, hchar⟩ :=
        ih (labels.set b0 (some b0)) (b0 + 1)
          (fun i hi => by
            have := hheads (i + 1) (by simpa using Nat.succ_lt_succ hi)
            rw [List.getD_cons_succ] at this
            rw [this]
            congr 2
            omega)
          (by rw [List.length_set]; simp only [List.length_cons] at hlen; omega)
      refine ⟨out, ?_, ?_, ?_⟩
      · unfold assignLabelsGo
        rw [hhead0]
        exact hgo
      · rw [hlenout, List.length_set]
      · intro j
        rw [hchar j, getD_set_opt]
        have hb0lt : b0 < labels.length := by
          simp only [List.length_cons] at hlen; omega
        by_cases h1 : b0 + 1 ≤ j ∧ j < b0 + 1 + bs.length
        · rw [if_pos h1, if_pos (by simp only [List.length_cons]; omega)]
        · rw [if_neg h1]
          by_cases h2 : b0 = j
          · subst h2
            rw [if_pos ⟨rfl, hb0lt⟩,
              if_pos (by simp only [List.length_cons]; omega)]
          · rw [if_neg (by tauto),
              if_neg (by simp only [List.length_cons]; omega)]

theorem resizeLabels_length (labels : List (Option Nat)) (last : Nat) :
    (resizeLabels labels last).length = last := by
  simp only [resizeLabels, List.length_append, List.length_take,
    List.length_replicate]
  rw [Nat.min_def]
  split <;> omega

/-- Claim C8: after a successful `sortLabels` (on a function whose labels sit
only at block heads), label indices are dense and contiguous — the k-th label
instruction in instruction order carries index k — the label table maps every
index to the block whose first instruction carries that label, and every
branch target has been rewritten through the old-to-new label map built by the
first pass. -/
theorem sortLabels_correct (fb fb' : FnBody)
    (h : sortLabels fb = some fb')
    (htails : ∀ blk ∈ fb.blocks, ∀ insn ∈ blk.drop 1, isLabelI insn = false) :
    labelIndicesOf fb'.blocks.flatten =
      List.range (labelIndicesOf fb'.blocks.flatten).length ∧
    fb'.labels.length = sortLabelsLast fb ∧
    (∀ i, i < fb'.labels.length →
      fb'.labels.getD i none = some i ∧
      (fb'.blocks.getD i []).head? = some (.label i)) ∧
    (∀ b k old pred, (fb.blocks.getD b []).getD k .ret = .bra old pred →
      ∃ new, (sortLabelsMap fb).lookup old = some new ∧
        (fb'.blocks.getD b []).getD k .ret = .bra new pred) := by
  simp only [sortLabels] at h
  split at h
  · simp at h
  · rename_i blocks2 hpatch
    split at h
    · simp at h
    · rename_i labels2 hassign
      rw [Option.some_inj] at h
      subst h
      have hlen1 :
          (mapAccumList (mapAccumList relabelInsn) (0, []) fb.blocks).2.length =
            fb.blocks.length := (relabelB_spec fb.blocks 0 []).2.2
      have hlen2 : blocks2.length = fb.blocks.length := by
        rw [mapOption_blocks_length _ _ _ hpatch, hlen1]
      have hheads0 : ∀ b, b < fb.blocks.length →
          ∃ j, (fb.blocks.getD b []).head? = some (.label j) := by
        intro b hb
        have hblt : b < blocks2.length := by omega
        have hbeq : blocks2.getD b [] = blocks2[b] := by
          rw [List.getD_eq_getElem?_getD, List.getElem?_eq_getElem hblt,
            Option.getD_some]
        have hb2 : blocks2.getD b [] ∈ blocks2 := by
          rw [hbeq]; exact List.getElem_mem hblt
        obtain ⟨j2, hj2⟩ := assign_heads blocks2 _ 0 labels2 hassign _ hb2
        have hpp := mapOption_blocks_pointwise _ _ _ hpatch b
        have hj1 :
            ((mapAccumList (mapAccumList relabelInsn) (0, [])
              fb.blocks).2.getD b []).head? = some (.label j2) :=
          ((patch_pointwise _ _ _ hpp).2.2 j2).mpr hj2
        obtain ⟨st', hst'⟩ := relabelB_getD fb.blocks (0, []) b hb
        rw [hst'] at hj1
        exact relabel_head_rev _ st'.1 st'.2 j2 hj1
      have hmem : ∀ blk ∈ fb.blocks, (∃ j, blk.head? = some (.label j)) ∧
          ∀ insn ∈ blk.drop 1, isLabelI insn = false := by
        intro blk hblk
        refine ⟨?_, htails blk hblk⟩
        obtain ⟨b, hb, hEq⟩ := List.mem_iff_getElem.mp hblk
        obtain ⟨j, hj⟩ := hheads0 b hb
        rw [List.getD_eq_getElem?_getD, List.getElem?_eq_getElem hb,
          Option.getD_some, hEq] at hj
        exact ⟨j, hj⟩
      obtain ⟨hH, hC⟩ := relabelB_heads fb.blocks 0 [] hmem
      have hlast : sortLabelsLast fb = fb.blocks.length := by
        show (mapAccumList (mapAccumList relabelInsn) (0, []) fb.blocks).1.1 = _
        rw [hC]
        omega
      have hheads2 : ∀ i, i < blocks2.length →
          (blocks2.getD i []).head? = some (.label (0 + i)) := by
        intro i hi
        have hpp := mapOption_blocks_pointwise _ _ _ hpatch i
        exact ((patch_pointwise _ _ _ hpp).2.2 (0 + i)).mp (hH i (by omega))
      obtain ⟨out, hgo, hlenout, hchar⟩ :=
        assign_spec blocks2 (resizeLabels fb.labels (sortLabelsLast fb)) 0
          hheads2 (by rw [resizeLabels_length]; omega)
      have hassign' : assignLabelsGo
          (resizeLabels fb.labels (sortLabelsLast fb)) 0 blocks2 =
            some labels2 := hassign
      rw [hassign'] at hgo
      rw [Option.some_inj] at hgo
      subst hgo
      have hlenlab : labels2.length = sortLabelsLast fb := by
        rw [hlenout, resizeLabels_length]
      refine ⟨?_, hlenlab, ?_, ?_⟩
      · have hA := mapOption_blocks_labels _ _ _ hpatch
        have hB := (relabelB_spec fb.blocks 0 []).2.1
        show labelIndicesOf blocks2.flatten =
          List.range (labelIndicesOf blocks2.flatten).length
        rw [hA, hB, ← List.range_eq_range', List.length_range]
      · intro i hi
        have hi2 : i < blocks2.length := by
          rw [hlenlab, hlast] at hi; omega
        constructor
        · show labels2.getD i none = some i
          rw [hchar i, if_pos ⟨by omega, by omega⟩]
        · show (blocks2.getD i []).head? = some (.label i)
          have := hheads2 i hi2
          simpa using this
      · intro b k old pred hbra
        have h1 := relabelB_bra fb.blocks 0 [] b k old pred hbra
        have hpp := mapOption_blocks_pointwise _ _ _ hpatch b
        exact (patch_pointwise _ _ _ hpp).1 k old pred h1

/-- Witness for `sortLabels_correct` on a one block function whose label 5 is
renumbered to 0 and whose self-branch is rewritten accordingly. -/
theorem sortLabels_correct_witness :
    labelIndicesOf (FnBody.mk [[.label 0, .bra 0 none]] [some 0]).blocks.flatten =
      List.range (labelIndicesOf
        (FnBody.mk [[.label 0, .bra 0 none]] [some 0]).blocks.flatten).length ∧
    (FnBody.mk [[.label 0, .bra 0 none]] [some 0]).labels.length =
      sortLabelsLast (FnBody.mk [[.label 5, .bra 5 none]] []) ∧
    (∀ i, i < (FnBody.mk [[.label 0, .bra 0 none]] [some 0]).labels.length →
      (FnBody.mk [[.label 0, .bra 0 none]] [some 0]).labels.getD i none =
        some i ∧
      ((FnBody.mk [[.label 0, .bra 0 none]] [some 0]).blocks.getD i []).head? =
        some (.label i)) ∧
    (∀ b k old pred,
      ((FnBody.mk [[.label 5, .bra 5 none]] []).blocks.getD b []).getD k .ret =
        .bra old pred →
      ∃ new,
        (sortLabelsMap (FnBody.mk [[.label 5, .bra 5 none]] [])).lookup old =
          some new ∧
        ((FnBody.mk [[.label 0, .bra 0 none]] [some 0]).blocks.getD b []).getD
          k .ret = .bra new pred) :=
  sortLabels_correct (FnBody.mk [[.label 5, .bra 5 none]] [])
    (FnBody.mk [[.label 0, .bra 0 none]] [some 0]) rfl (by decide)

/-! ## The dependency-DAG scheduler (backend/gen_insn_scheduling.cpp) -/

/-- Register file / ARF encodings.  Modelled from the spec: gen_defs.hpp is
not part of the source snapshot; these are the standard Gen ISA values the
headers in the snapshot (gen_register.hpp) rely on.  Only the distinctions
between the files and between the ARF sub-files matter to the scheduler. -/
def GEN_ARCHITECTURE_REGISTER_FILE : Nat := 0
def GEN_GENERAL_REGISTER_FILE : Nat := 1
def GEN_IMMEDIATE_VALUE : Nat := 3
def GEN_ARF_NULL : Nat := 0x00
def GEN_ARF_ACCUMULATOR : Nat := 0x20
def GEN_ARF_FLAG : Nat := 0x90
/-- `GEN_PREDICATE_NONE` (gen_defs.hpp, modelled from the spec). -/
def GEN_PREDICATE_NONE : Nat := 0

/-- The fields of `GenRegister` that the scheduler reads: the register file,
whether the register is physical, the (physical) register number and
sub-register byte offset, and the virtual register id (`value.reg`). -/
structure GenReg where
  file : Nat
  physical : Bool
  nr : Nat
  subnr : Nat
  regValue : Nat
deriving DecidableEq, Repr

/-- `GenRegister::flag(nr, subnr)`: a physical ARF flag register; the
constructor scales the sub-register by `typeSize(GEN_TYPE_UW) = 2`. -/
def GenReg.flag (nr subnr : Nat) : GenReg :=
  ⟨GEN_ARCHITECTURE_REGISTER_FILE, true, GEN_ARF_FLAG ||| nr, subnr * 2, 0⟩

/-- `GenRegister::uw1grf(reg)`: a virtual GRF register. -/
def GenReg.uw1grf (reg : Nat) : GenReg :=
  ⟨GEN_GENERAL_REGISTER_FILE, false, 0, 0, reg⟩

/-- `GenRegister::acc()`: the physical accumulator. -/
def GenReg.acc : GenReg :=
  ⟨GEN_ARCHITECTURE_REGISTER_FILE, true, GEN_ARF_ACCUMULATOR, 0, 0⟩

/-- `enum SchedulePolicy`. -/
inductive SchedulePolicy where
  | PRE_ALLOC
  | POST_ALLOC
deriving DecidableEq, Repr

/-- `enum GenMemory` and the tracker size constants. -/
def GLOBAL_MEMORY : Nat := 0
def LOCAL_MEMORY : Nat := 1
def MAX_MEM_SYSTEM : Nat := 2
def MAX_FLAG_REGISTER : Nat := 8
def MAX_ACC_REGISTER : Nat := 1

/-- The selection opcodes the scheduler tests explicitly; all others are
covered by `SEL_OP_OTHER`. -/
inductive SelOpcode where
  | SEL_OP_CMP
  | SEL_OP_BARRIER
  | SEL_OP_WAIT
  | SEL_OP_EOT
  | SEL_OP_LABEL
  | SEL_OP_JMPI
  | SEL_OP_OTHER (n : Nat)
deriving DecidableEq, Repr

/-- The `GenInstructionState` fields read by the scheduler. -/
structure SelState where
  physicalFlag : Bool
  flag : Nat
  subFlag : Nat
  flagIndex : Nat
  predicate : Nat
  accWrEnable : Bool
deriving DecidableEq, Repr

/-- A `SelectionInstruction` as seen by the scheduler: opcode, execution
state, destination and source registers, `extra.function` (the bti of
loads/stores), and the four classification predicates.  The bodies of
`isRead`, `isWrite`, `isBranch`, `isLabel` live in gen_insn_selection.cpp,
which is not part of the source snapshot, so they are modelled from the spec
as per-instruction fields ("every Selection Instruction records whether it
reads/writes memory ... whether it is a branch/label/terminal"). -/
structure SelInsn where
  opcode : SelOpcode
  state : SelState
  dsts : List GenReg
  srcs : List GenReg
  extraFunction : Nat
  readsMemory : Bool
  writesMemory : Bool
  branchFlag : Bool
  labelFlag : Bool
deriving DecidableEq, Repr

instance : Inhabited SelInsn :=
  ⟨⟨.SEL_OP_OTHER 0, ⟨true, 0, 0, 0, 0, false⟩, [], [], 0,
    false, false, false, false⟩⟩

/-- The context a `SelectionScheduler` reads: the policy, the SIMD width of
the kernel, the register allocator's virtual-to-physical map
(`ctx.ra->genReg`) and the number of virtual registers of the selection
(`selection.getRegNum()`). -/
structure SchedCtx where
  policy : SchedulePolicy
  simdWidth : Nat
  ra : GenReg → GenReg
  selRegNum : Nat

/-- `DependencyTracker::grfNum` as set by the constructor: the number of
virtual registers before allocation; 128 GRF slots at SIMD8 and 64 double
slots at SIMD16 after allocation. -/
def SchedCtx.grfNum (c : SchedCtx) : Nat :=
  match c.policy with
  | .PRE_ALLOC => c.selRegNum
  | .POST_ALLOC => if c.simdWidth = 8 then 128 else 64

/-- The size to which the constructor resizes the `nodes` vector. -/
def SchedCtx.nodesSize (c : SchedCtx) : Nat :=
  c.grfNum + MAX_FLAG_REGISTER + MAX_ACC_REGISTER + MAX_MEM_SYSTEM

/-- `getFlag(insn)`: the physical flag or the virtual boolean register
holding it. -/
def getFlag (insn : SelInsn) : GenReg :=
  if insn.state.physicalFlag then GenReg.flag insn.state.flag insn.state.subFlag
  else GenReg.uw1grf insn.state.flagIndex

/-- `DependencyTracker::ignoreDependency`: immediates and ARF null never carry
dependencies. -/
def ignoreDependency (reg : GenReg) : Bool :=
  if reg.file = GEN_IMMEDIATE_VALUE then true
  else if reg.file = GEN_ARCHITECTURE_REGISTER_FILE then
    decide ((reg.nr &&& 0xf0) = GEN_ARF_NULL)
  else false

/-- `DependencyTracker::getIndex(GenRegister)`: flags and accumulators get
their own slots; after allocation, GRF registers are tracked by physical
register number (halved at SIMD16 — sub-register offsets are ignored);
before allocation, by virtual register id. -/
def getIndex (c : SchedCtx) (reg : GenReg) : Nat :=
  if reg.physical then
    let file := reg.nr &&& 0xf0
    let nr := reg.nr &&& 0x0f
    if file = GEN_ARF_FLAG then
      c.grfNum + 2 * nr + reg.subnr / 2
    else if file = GEN_ARF_ACCUMULATOR then
      c.grfNum + MAX_FLAG_REGISTER + nr
    else 0
  else if c.policy = .POST_ALLOC then
    if c.simdWidth = 8 then (c.ra reg).nr else (c.ra reg).nr / 2
  else reg.regValue

/-- `DependencyTracker::getIndex(uint32_t bti)`: the two memory resources. -/
def getMemIndex (c : SchedCtx) (bti : Nat) : Nat :=
  let memDelta := c.grfNum + MAX_FLAG_REGISTER + MAX_ACC_REGISTER
  if bti = 0xfe then memDelta + LOCAL_MEMORY else memDelta + GLOBAL_MEMORY

/-- The DAG-building state: `children` and `refNum` live in the
`ScheduleDAGNode`s, `lastW` is the tracker's `nodes` array (resource index to
last writer), modelled as a total map. -/
structure BuildState where
  children : Nat → List Nat
  refNum : Nat → Nat
  lastW : Nat → Option Nat

/-- `ScheduleDAGNode::dependsOn` — note that the source ignores its argument
and scans `node0`'s own children for `node0` itself, so it can only detect a
self-loop (which is never created); duplicate edges are therefore not
deduplicated.  Embedded faithfully. -/
def dependsOn (s : BuildState) (node0 : Nat) (_node1 : Nat) : Bool :=
  (s.children node0).contains node0

/-- `DependencyTracker::addDependency(node0, node1)`: "node0 depends on
node1"; null nodes and self-dependencies are skipped. -/
def addDep (s : BuildState) (node0 node1 : Option Nat) : BuildState :=
  match node0, node1 with
  | some i, some j =>
    if i ≠ j ∧ dependsOn s i j = false then
      { s with
        children := fun k => if k = j then s.children j ++ [i] else s.children k,
        refNum := fun k => if k = i then s.refNum i + 1 else s.refNum k }
    else s
  | _, _ => s

/-- `addDependency(node0, reg)`: node0 depends on the last writer of reg. -/
def addDepNodeReg (c : SchedCtx) (s : BuildState) (i : Nat) (reg : GenReg) :
    BuildState :=
  if ignoreDependency reg then s
  else addDep s (some i) (s.lastW (getIndex c reg))

/-- `addDependency(reg, node0)`: the last writer of reg depends on node0. -/
def addDepRegNode (c : SchedCtx) (s : BuildState) (reg : GenReg) (i : Nat) :
    BuildState :=
  if ignoreDependency reg then s
  else addDep s (s.lastW (getIndex c reg)) (some i)

/-- `this->nodes[index] = node`. -/
def setLastW (s : BuildState) (idx : Nat) (i : Nat) : BuildState :=
  { s with lastW := fun k => if k = idx then some i else s.lastW k }

/-- `updateWrites`: track register writes. -/
def uwDsts (c : SchedCtx) (s : BuildState) (i : Nat) (insn : SelInsn) :
    BuildState :=
  insn.dsts.foldl
    (fun s dst => if ignoreDependency dst then s
      else setLastW s (getIndex c dst) i) s

/-- `updateWrites`: track writes in predicates (compares). -/
def uwCmp (c : SchedCtx) (s : BuildState) (i : Nat) (insn : SelInsn) :
    BuildState :=
  if insn.opcode = .SEL_OP_CMP then setLastW s (getIndex c (getFlag insn)) i
  else s

/-- `updateWrites`: track writes in accumulators. -/
def uwAcc (c : SchedCtx) (s : BuildState) (i : Nat) (insn : SelInsn) :
    BuildState :=
  if insn.state.accWrEnable then setLastW s (getIndex c GenReg.acc) i else s

/-- `updateWrites`: track writes in memory. -/
def uwWrite (c : SchedCtx) (s : BuildState) (i : Nat) (insn : SelInsn) :
    BuildState :=
  if insn.writesMemory then setLastW s (getMemIndex c insn.extraFunction) i
  else s

/-- `updateWrites`: barriers and waits write both memories. -/
def uwFence (c : SchedCtx) (s : BuildState) (i : Nat) (insn : SelInsn) :
    BuildState :=
  if insn.opcode = .SEL_OP_BARRIER ∨ insn.opcode = .SEL_OP_WAIT then
    setLastW (setLastW s (getMemIndex c 0xfe) i) (getMemIndex c 0x00) i
  else s

/-- `DependencyTracker::updateWrites`. -/
def updateWrites (c : SchedCtx) (s : BuildState) (i : Nat) (insn : SelInsn) :
    BuildState :=
  uwFence c (uwWrite c (uwAcc c (uwCmp c (uwDsts c s i insn) i insn) i insn)
    i insn) i insn

/-- Forward pass: read-after-write on the sources. -/
def fwdSrcs (c : SchedCtx) (s : BuildState) (i : Nat) (insn : SelInsn) :
    BuildState :=
  insn.srcs.foldl (fun s src => addDepNodeReg c s i src) s

/-- Forward pass: read-after-write on the predicate. -/
def fwdPred (c : SchedCtx) (s : BuildState) (i : Nat) (insn : SelInsn) :
    BuildState :=
  if insn.state.predicate ≠ GEN_PREDICATE_NONE then
    addDepNodeReg c s i (getFlag insn)
  else s

/-- Forward pass: read-after-write in memory. -/
def fwdRead (c : SchedCtx) (s : BuildState) (i : Nat) (insn : SelInsn) :
    BuildState :=
  if insn.readsMemory then
    addDep s (some i) (s.lastW (getMemIndex c insn.extraFunction))
  else s

/-- Forward pass: barriers and waits depend on both memories (the same code
appears twice in `buildDAG`, for the read side and the write side). -/
def fwdFence (c : SchedCtx) (s : BuildState) (i : Nat) (insn : SelInsn) :
    BuildState :=
  if insn.opcode = .SEL_OP_BARRIER ∨ insn.opcode = .SEL_OP_WAIT then
    let sa := addDep s (some i) (s.lastW (getMemIndex c 0xfe))
    addDep sa (some i) (sa.lastW (getMemIndex c 0x00))
  else s

/-- Forward pass: write-after-write on the destinations. -/
def fwdDsts (c : SchedCtx) (s : BuildState) (i : Nat) (insn : SelInsn) :
    BuildState :=
  insn.dsts.foldl (fun s dst => addDepNodeReg c s i dst) s

/-- Forward pass: write-after-write on the predicate (compares). -/
def fwdCmp (c : SchedCtx) (s : BuildState) (i : Nat) (insn : SelInsn) :
    BuildState :=
  if insn.opcode = .SEL_OP_CMP then addDepNodeReg c s i (getFlag insn) else s

/-- Forward pass: write-after-write on the accumulator. -/
def fwdAcc (c : SchedCtx) (s : BuildState) (i : Nat) (insn : SelInsn) :
    BuildState :=
  if insn.state.accWrEnable then addDepNodeReg c s i GenReg.acc else s

/-- Forward pass: write-after-write in memory. -/
def fwdWrite (c : SchedCtx) (s : BuildState) (i : Nat) (insn : SelInsn) :
    BuildState :=
  if insn.writesMemory then
    addDep s (some i) (s.lastW (getMemIndex c insn.extraFunction))
  else s

/-- One instruction of `buildDAG`'s forward (RAW/WAW) pass. -/
def fwdStep (c : SchedCtx) (s : BuildState) (i : Nat) (insn : SelInsn) :
    BuildState :=
  updateWrites c
    (fwdFence c
      (fwdWrite c
        (fwdAcc c
          (fwdCmp c
            (fwdDsts c
              (fwdFence c
                (fwdRead c (fwdPred c (fwdSrcs c s i insn) i insn) i insn)
                i insn)
              i insn)
            i insn)
          i insn)
        i insn)
      i insn)
    i insn

/-- Backward pass: write-after-read on the sources. -/
def backSrcs (c : SchedCtx) (s : BuildState) (i : Nat) (insn : SelInsn) :
    BuildState :=
  insn.srcs.foldl (fun s src => addDepRegNode c s src i) s

/-- Backward pass: write-after-read on the predicate. -/
def backPred (c : SchedCtx) (s : BuildState) (i : Nat) (insn : SelInsn) :
    BuildState :=
  if insn.state.predicate ≠ GEN_PREDICATE_NONE then
    addDepRegNode c s (getFlag insn) i
  else s

/-- Backward pass: write-after-read in memory. -/
def backRead (c : SchedCtx) (s : BuildState) (i : Nat) (insn : SelInsn) :
    BuildState :=
  if insn.readsMemory then
    addDep s (s.lastW (getMemIndex c insn.extraFunction)) (some i)
  else s

/-- Backward pass: barriers and waits are read by both memories' writers. -/
def backFence (c : SchedCtx) (s : BuildState) (i : Nat) (insn : SelInsn) :
    BuildState :=
  if insn.opcode = .SEL_OP_BARRIER ∨ insn.opcode = .SEL_OP_WAIT then
    let sa := addDep s (s.lastW (getMemIndex c 0xfe)) (some i)
    addDep sa (sa.lastW (getMemIndex c 0x00)) (some i)
  else s

/-- One instruction of `buildDAG`'s backward (WAR) pass. -/
def backStep (c : SchedCtx) (s : BuildState) (i : Nat) (insn : SelInsn) :
    BuildState :=
  updateWrites c
    (backFence c (backRead c (backPred c (backSrcs c s i insn) i insn) i insn)
      i insn)
    i insn

/-- Forward pass over instructions `0 .. k-1`, in ascending order. -/
def buildFwd (c : SchedCtx) (insnAt : Nat → SelInsn) :
    Nat → BuildState → BuildState
  | 0, s => s
  | k + 1, s => fwdStep c (buildFwd c insnAt k s) k (insnAt k)

/-- Backward pass over instructions `k-1 .. 0`, in descending order. -/
def buildBack (c : SchedCtx) (insnAt : Nat → SelInsn) :
    Nat → BuildState → BuildState
  | 0, s => s
  | k + 1, s => buildBack c insnAt k (backStep c s k (insnAt k))

/-- Branches, labels and the end-of-thread instruction act as barriers. -/
def isBarrierInsn (insn : SelInsn) : Bool :=
  insn.branchFlag || insn.labelFlag || decide (insn.opcode = .SEL_OP_EOT)

/-- First loop of `makeBarrier`: the barrier at `i` depends on every node
before it (ascending `j = 0 .. i-1`). -/
def barBefore (s : BuildState) (i : Nat) : Nat → BuildState
  | 0 => s
  | j + 1 => addDep (barBefore s i j) (some i) (some j)

/-- Second loop of `makeBarrier`: every node after the barrier depends on it
(ascending `j = i+1 .. i+cnt`). -/
def barAfterGo (s : BuildState) (i : Nat) : Nat → BuildState
  | 0 => s
  | k + 1 => addDep (barAfterGo s i k) (some (i + 1 + k)) (some i)

/-- `DependencyTracker::makeBarrier(i, n)`. -/
def makeBarrier (s : BuildState) (i n : Nat) : BuildState :=
  barAfterGo (barBefore s i i) i (n - (i + 1))

/-- The barrier pass: every branch/label/EOT instruction among `0 .. k-1`
becomes a barrier, in ascending order. -/
def barrierPass (insnAt : Nat → SelInsn) (n : Nat) :
    Nat → BuildState → BuildState
  | 0, s => s
  | k + 1, s =>
    let s' := barrierPass insnAt n k s
    if isBarrierInsn (insnAt k) then makeBarrier s' k n else s'

/-- The result of `SelectionScheduler::buildDAG`: the DAG edges, the
unresolved-predecessor counts, the initial ready list (nodes with no
predecessor, in instruction order) and the number of instructions. -/
structure DAGResult where
  children : Nat → List Nat
  refNum : Nat → Nat
  ready : List Nat
  insnNum : Nat

def initBuildState : BuildState :=
  ⟨fun _ => [], fun _ => 0, fun _ => none⟩

/-- `tracker.clear()` between the two passes. -/
def clearLastW (s : BuildState) : BuildState :=
  { s with lastW := fun _ => none }

/-- `SelectionScheduler::buildDAG`. -/
def buildDAG (c : SchedCtx) (block : List SelInsn) : DAGResult :=
  let n := block.length
  let insnAt := fun i => block.getD i default
  let s1 := buildFwd c insnAt n initBuildState
  let s2 := buildBack c insnAt n (clearLastW s1)
  let s3 := barrierPass insnAt n n s2
  { children := s3.children, refNum := s3.refNum,
    ready := (List.range n).filter (fun q => s3.refNum q == 0),
    insnNum := n }

/-! ### `SelectionScheduler::scheduleDAG` -/

/-- The mutable state of the scheduling loop. -/
structure SchedState where
  cycle : Nat
  ready : List Nat
  active : List Nat
  children : Nat → List Nat
  refNum : Nat → Nat
  retiredCycle : Nat → Nat
  out : List Nat
  remaining : Nat

/-- Walk the children list of a retiring node: each entry's `refNum` is
decremented (`--refNum == 0` of the unsigned source is the `refNum = 1` test);
entries that reach zero move to the back of the ready list, the others stay.
Returns the new counts, the new ready list and the surviving children. -/
def processChildren :
    List Nat → (Nat → Nat) → List Nat → ((Nat → Nat) × List Nat × List Nat)
  | [], refNum, ready => (refNum, ready, [])
  | ch :: rest, refNum, ready =>
    let r := fun k => if k = ch then refNum ch - 1 else refNum k
    if refNum ch = 1 then
      processChildren rest r (ready ++ [ch])
    else
      match processChildren rest r ready with
      | (rf, rd, kept) => (rf, rd, ch :: kept)

/-- Retire one node whose cycle has come: release its children. -/
def retireNode (p : Nat) (s : SchedState) : SchedState :=
  match processChildren (s.children p) s.refNum s.ready with
  | (rf, rd, kept) =>
    { s with
      refNum := rf
      ready := rd
      children := fun k => if k = p then kept else s.children k }

/-- The retirement sweep over the active list. -/
def retireGo : List Nat → SchedState → SchedState
  | [], s => s
  | p :: rest, s =>
    if s.retiredCycle p ≤ s.cycle then retireGo rest (retireNode p s)
    else retireGo rest { s with active := s.active ++ [p] }

def retirePhase (s : SchedState) : SchedState :=
  retireGo s.active { s with active := [] }

/-- The pick-or-tick part of one `while` iteration: POST_ALLOC takes the
front of the ready list (FIFO), advances the clock by the instruction's
throughput and retires it at clock + latency; PRE_ALLOC takes the back
(LIFO) and retires it at the current clock (zero-cycle completion).  An empty
ready list just advances the clock. -/
def schedPick (c : SchedCtx) (lat thr : SelInsn → Nat) (insnAt : Nat → SelInsn)
    (s : SchedState) : SchedState :=
  match c.policy with
  | .POST_ALLOC =>
    match s.ready with
    | [] => { s with cycle := s.cycle + 1 }
    | x :: rest =>
      let cyc := s.cycle + thr (insnAt x)
      let rc := fun k => if k = x then cyc + lat (insnAt x) else s.retiredCycle k
      { s with
        cycle := cyc
        ready := rest
        active := s.active ++ [x]
        retiredCycle := rc
        out := s.out ++ [x]
        remaining := s.remaining - 1 }
  | .PRE_ALLOC =>
    match s.ready.getLast? with
    | none => { s with cycle := s.cycle + 1 }
    | some x =>
      let rc := fun k => if k = x then s.cycle else s.retiredCycle k
      { s with
        ready := s.ready.dropLast
        active := s.active ++ [x]
        retiredCycle := rc
        out := s.out ++ [x]
        remaining := s.remaining - 1 }

/-- One iteration of the `while (insnNum)` loop. -/
def schedStep (c : SchedCtx) (lat thr : SelInsn → Nat)
    (insnAt : Nat → SelInsn) (s : SchedState) : SchedState :=
  schedPick c lat thr insnAt (retirePhase s)

/-- The scheduling loop, fuelled: the C++ `while (insnNum)` loop does not
terminate on a cyclic DAG, which the fuel models as `none`. -/
def schedLoop (c : SchedCtx) (lat thr : SelInsn → Nat)
    (insnAt : Nat → SelInsn) : Nat → SchedState → Option (List Nat)
  | 0, s => if s.remaining = 0 then some s.out else none
  | fuel + 1, s =>
    if s.remaining = 0 then some s.out
    else schedLoop c lat thr insnAt fuel (schedStep c lat thr insnAt s)

/-- The loop state on entry of `scheduleDAG`. -/
def initSched (d : DAGResult) : SchedState :=
  ⟨0, d.ready, [], d.children, d.refNum, fun _ => 0, [], d.insnNum⟩

/-- `buildDAG` followed by `scheduleDAG` on one block, producing the
rescheduled instruction list.  `lat` and `thr` stand for `getLatencyGen7`
and `getThroughputGen7` (already specialized to the SIMD width); their table,
gen_insn_gen7_schedule_info.hxx, is not part of the source snapshot, so they
stay parameters.  Modelled from the spec: "a per-opcode-family latency and
throughput table". -/
def scheduleBlock (c : SchedCtx) (lat thr : SelInsn → Nat)
    (block : List SelInsn) (fuel : Nat) : Option (List SelInsn) :=
  (schedLoop c lat thr (fun i => block.getD i default) fuel
      (initSched (buildDAG c block))).map
    (fun out => out.map (fun i => block.getD i default))

/-- Claim C4: with a non-empty ready list, PRE_ALLOC selects the most
recently added (last) ready node, does not advance the clock, and retires it
at the current cycle; POST_ALLOC selects the oldest (first) ready node,
advances the clock by the instruction's throughput, and retires it at the
advanced clock plus the instruction's latency. -/
theorem schedPick_policies (c : SchedCtx) (lat thr : SelInsn → Nat)
    (insnAt : Nat → SelInsn) (s : SchedState) :
    (∀ l x, c.policy = .PRE_ALLOC → s.ready = l ++ [x] →
      (schedPick c lat thr insnAt s).out = s.out ++ [x] ∧
      (schedPick c lat thr insnAt s).cycle = s.cycle ∧
      (schedPick c lat thr insnAt s).retiredCycle x = s.cycle ∧
      (schedPick c lat thr insnAt s).ready = l) ∧
    (∀ x rest, c.policy = .POST_ALLOC → s.ready = x :: rest →
      (schedPick c lat thr insnAt s).out = s.out ++ [x] ∧
      (schedPick c lat thr insnAt s).cycle = s.cycle + thr (insnAt x) ∧
      (schedPick c lat thr insnAt s).retiredCycle x =
        s.cycle + thr (insnAt x) + lat (insnAt x) ∧
      (schedPick c lat thr insnAt s).ready = rest) := by
  constructor
  · intro l x hp hr
    simp [schedPick, hp, hr, List.getLast?_concat, List.dropLast_concat]
  · intro x rest hp hr
    simp [schedPick, hp, hr]

def c4ctxPre : SchedCtx := ⟨.PRE_ALLOC, 16, id, 4⟩
def c4ctxPost : SchedCtx := ⟨.POST_ALLOC, 16, id, 4⟩
def c4state : SchedState :=
  ⟨5, [0, 1], [], fun _ => [], fun _ => 0, fun _ => 0, [], 2⟩
def c4lat : SelInsn → Nat := fun _ => 10
def c4thr : SelInsn → Nat := fun _ => 2
def c4insnAt : Nat → SelInsn := fun _ => default

/-- Witness for `schedPick_policies` at a two-element ready list. -/
theorem schedPick_policies_witness :
    ((schedPick c4ctxPre c4lat c4thr c4insnAt c4state).out =
        c4state.out ++ [1] ∧
     (schedPick c4ctxPre c4lat c4thr c4insnAt c4state).cycle = c4state.cycle ∧
     (schedPick c4ctxPre c4lat c4thr c4insnAt c4state).retiredCycle 1 =
        c4state.cycle ∧
     (schedPick c4ctxPre c4lat c4thr c4insnAt c4state).ready = [0]) ∧
    ((schedPick c4ctxPost c4lat c4thr c4insnAt c4state).out =
        c4state.out ++ [0] ∧
     (schedPick c4ctxPost c4lat c4thr c4insnAt c4state).cycle =
        c4state.cycle + c4thr (c4insnAt 0) ∧
     (schedPick c4ctxPost c4lat c4thr c4insnAt c4state).retiredCycle 0 =
        c4state.cycle + c4thr (c4insnAt 0) + c4lat (c4insnAt 0) ∧
     (schedPick c4ctxPost c4lat c4thr c4insnAt c4state).ready = [1]) :=
  ⟨(schedPick_policies c4ctxPre c4lat c4thr c4insnAt c4state).1 [0] 1 rfl rfl,
   (schedPick_policies c4ctxPost c4lat c4thr c4insnAt c4state).2 0 [1] rfl rfl⟩

/-- Claim C7: the node table has 128 general slots at SIMD8 and 64 at SIMD16
post-allocation; post-allocation, an allocated GRF register's resource index
is its physical register number (SIMD8) or that number divided by two
(SIMD16), ignoring sub-register offsets, so registers in the same granule are
conflated; pre-allocation the index is the virtual register number. -/
theorem getIndex_resource (c : SchedCtx) :
    (c.policy = .POST_ALLOC →
      (c.simdWidth = 8 → c.grfNum = 128) ∧ (c.simdWidth = 16 → c.grfNum = 64)) ∧
    (∀ reg, reg.physical = false → c.policy = .POST_ALLOC →
      getIndex c reg =
        (if c.simdWidth = 8 then (c.ra reg).nr else (c.ra reg).nr / 2)) ∧
    (∀ r1 r2, r1.physical = false → r2.physical = false →
      c.policy = .POST_ALLOC → c.simdWidth = 16 →
      (c.ra r1).nr / 2 = (c.ra r2).nr / 2 → getIndex c r1 = getIndex c r2) ∧
    (∀ r1 r2, r1.physical = false → r2.physical = false →
      c.policy = .POST_ALLOC → c.simdWidth = 8 →
      (c.ra r1).nr = (c.ra r2).nr → getIndex c r1 = getIndex c r2) ∧
    (∀ reg, reg.physical = false → c.policy = .PRE_ALLOC →
      getIndex c reg = reg.regValue) := by
  refine ⟨?_, ?_, ?_, ?_, ?_⟩
  · intro hp
    constructor <;> intro hw <;> simp [SchedCtx.grfNum, hp, hw]
  · intro reg hphys hp
    simp [getIndex, hphys, hp]
  · intro r1 r2 h1 h2 hp hw heq
    simp [getIndex, h1, h2, hp, hw, heq]
  · intro r1 r2 h1 h2 hp hw heq
    simp [getIndex, h1, h2, hp, hw, heq]
  · intro reg hphys hp
    simp [getIndex, hphys, hp]

def c7ctx : SchedCtx :=
  ⟨.POST_ALLOC, 16, fun r => ⟨GEN_GENERAL_REGISTER_FILE, true, r.regValue + 4,
    r.regValue, 0⟩, 9⟩

/-- Witness for `getIndex_resource`: two virtual registers allocated to
physical registers 4 and 5 with different sub-offsets land on the same
SIMD16 granule index. -/
theorem getIndex_resource_witness :
    ((c7ctx.policy = .POST_ALLOC →
      (c7ctx.simdWidth = 8 → c7ctx.grfNum = 128) ∧
      (c7ctx.simdWidth = 16 → c7ctx.grfNum = 64))) ∧
    getIndex c7ctx (GenReg.uw1grf 0) = getIndex c7ctx (GenReg.uw1grf 1) :=
  ⟨(getIndex_resource c7ctx).1,
   (getIndex_resource c7ctx).2.2.1 (GenReg.uw1grf 0) (GenReg.uw1grf 1)
     rfl rfl rfl rfl (by decide)⟩

/-! ### Structural invariants of the built DAG -/

/-- All edges of the DAG go from an earlier instruction to a later one of the
block (`children p` lists the nodes depending on `p`). -/
def EdgeOK (n : Nat) (s : BuildState) : Prop :=
  ∀ p q, q ∈ s.children p → p < q ∧ q < n

/-- The number of edge occurrences into `q`. -/
def sumCount (n : Nat) (ch : Nat → List Nat) (q : Nat) : Nat :=
  ∑ p ∈ Finset.range n, (ch p).count q

/-- `refNum` equals the number of incoming edge occurrences. -/
def CntOK (n : Nat) (s : BuildState) : Prop :=
  ∀ q, s.refNum q = sumCount n s.children q

/-- Forward pass invariant: all recorded last writers precede `k`. -/
def LWmax (s : BuildState) (k : Nat) : Prop :=
  ∀ idx j, s.lastW idx = some j → j < k

/-- Backward pass invariant: all recorded last writers lie in `[k, n)`. -/
def LWmin (s : BuildState) (k n : Nat) : Prop :=
  ∀ idx j, s.lastW idx = some j → k ≤ j ∧ j < n

theorem addDep_lastW (s : BuildState) (o1 o2 : Option Nat) :
    (addDep s o1 o2).lastW = s.lastW := by
  cases o1 with
  | none => rfl
  | some i =>
      cases o2 with
      | none => rfl
      | some j =>
          by_cases h : i ≠ j ∧ dependsOn s i j = false <;> simp [addDep, h]

theorem addDep_children_mono {s : BuildState} {o1 o2 : Option Nat} {p q : Nat}
    (h : q ∈ s.children p) : q ∈ (addDep s o1 o2).children p := by
  cases o1 with
  | none => exact h
  | some i =>
      cases o2 with
      | none => exact h
      | some j =>
          by_cases hc : i ≠ j ∧ dependsOn s i j = false
          · simp only [addDep, if_pos hc]
            by_cases hp : p = j
            · subst hp
              rw [if_pos rfl, List.mem_append]
              exact Or.inl h
            · rw [if_neg hp]
              exact h
          · simpa [addDep, hc] using h

theorem addDep_children_cases {s : BuildState} {o1 o2 : Option Nat} {p q : Nat}
    (h : q ∈ (addDep s o1 o2).children p) :
    q ∈ s.children p ∨ (o1 = some q ∧ o2 = some p) := by
  cases o1 with
  | none => exact Or.inl h
  | some i =>
      cases o2 with
      | none => exact Or.inl h
      | some j =>
          by_cases hc : i ≠ j ∧ dependsOn s i j = false
          · simp only [addDep, if_pos hc] at h
            by_cases hp : p = j
            · subst hp
              rw [if_pos rfl, List.mem_append, List.mem_singleton] at h
              rcases h with h | rfl
              · exact Or.inl h
              · exact Or.inr ⟨rfl, rfl⟩
            · rw [if_neg hp] at h
              exact Or.inl h
          · simp only [addDep, if_neg hc] at h
            exact Or.inl h

theorem sumCount_update_append (n : Nat) (ch : Nat → List Nat) (j i q : Nat)
    (hj : j < n) :
    sumCount n (fun k => if k = j then ch j ++ [i] else ch k) q =
      sumCount n ch q + (if q = i then 1 else 0) := by
  unfold sumCount
  have hpt : ∀ p, ((fun k => if k = j then ch j ++ [i] else ch k) p).count q =
      (ch p).count q + (if p = j then (if q = i then 1 else 0) else 0) := by
    intro p
    by_cases hp : p = j
    · subst hp
      simp only [if_pos rfl, List.count_append, List.count_singleton]
      by_cases hqi : q = i
      · subst hqi; simp
      · have hne : (i == q) = false := by
          simp [BEq.beq]
          omega
        simp [hqi, hne]
    · simp [hp]
  rw [Finset.sum_congr rfl (fun p _ => hpt p), Finset.sum_add_distrib,
    Finset.sum_ite_eq' (Finset.range n) j
      (fun _ => (if q = i then 1 else 0 : Nat)),
    if_pos (Finset.mem_range.mpr hj)]

theorem addDep_pres {n : Nat} {s : BuildState} {o1 o2 : Option Nat}
    (hE : EdgeOK n s) (hC : CntOK n s)
    (hpair : ∀ a b, o1 = some a → o2 = some b → b < a ∧ a < n) :
    EdgeOK n (addDep s o1 o2) ∧ CntOK n (addDep s o1 o2) := by
  constructor
  · intro p q h
    rcases addDep_children_cases h with h | ⟨h1, h2⟩
    · exact hE p q h
    · obtain ⟨hba, han⟩ := hpair q p h1 h2
      exact ⟨hba, han⟩
  · intro q
    cases o1 with
    | none => exact hC q
    | some i =>
        cases o2 with
        | none => exact hC q
        | some j =>
            by_cases hc : i ≠ j ∧ dependsOn s i j = false
            · have hjn : j < n := by
                have h1 := (hpair i j rfl rfl).1
                have h2 := (hpair i j rfl rfl).2
                omega
              simp only [addDep, if_pos hc]
              rw [sumCount_update_append n s.children j i q hjn]
              by_cases hq : q = i
              · subst hq
                rw [if_pos rfl, if_pos rfl, hC]
              · rw [if_neg hq, if_neg hq, hC, Nat.add_zero]
            · simp only [addDep, if_neg hc]
              exact hC q

theorem setLastW_children (s : BuildState) (idx i : Nat) :
    (setLastW s idx i).children = s.children := rfl

theorem setLastW_refNum (s : BuildState) (idx i : Nat) :
    (setLastW s idx i).refNum = s.refNum := rfl

/-- Generic fold preservation. -/
theorem foldl_pres {α : Type} (P : BuildState → Prop)
    (f : BuildState → α → BuildState) (hf : ∀ s a, P s → P (f s a)) :
    ∀ (l : List α) (s : BuildState), P s → P (l.foldl f s) := by
  intro l
  induction l with
  | nil => intro s h; exact h
  | cons a l ih => intro s h; exact ih (f s a) (hf s a h)


/-- The invariant carried through the forward pass before instruction `i`. -/
def FwdP (n i : Nat) (s : BuildState) : Prop :=
  EdgeOK n s ∧ CntOK n s ∧ LWmax s i

theorem addDep_fwd_P {n i : Nat} {s : BuildState} (o2 : Option Nat)
    (hin : i < n) (h : FwdP n i s) (ho2 : ∀ j, o2 = some j → j < i) :
    FwdP n i (addDep s (some i) o2) := by
  obtain ⟨hE, hC, hLW⟩ := h
  obtain ⟨hE', hC'⟩ := @addDep_pres n s (some i) o2 hE hC
    (fun a b ha hb => by
      injection ha with ha'
      subst ha'
      exact ⟨ho2 b hb, hin⟩)
  refine ⟨hE', hC', ?_⟩
  intro idx j hj
  rw [addDep_lastW] at hj
  exact hLW idx j hj

theorem addDepNodeReg_P (c : SchedCtx) {n i : Nat} {s : BuildState}
    (reg : GenReg) (hin : i < n) (h : FwdP n i s) :
    FwdP n i (addDepNodeReg c s i reg) := by
  unfold addDepNodeReg
  split
  · exact h
  · exact addDep_fwd_P _ hin h (fun j hj => h.2.2 _ j hj)

theorem fwdSrcs_P (c : SchedCtx) {n i : Nat} {s : BuildState} (insn : SelInsn)
    (hin : i < n) (h : FwdP n i s) : FwdP n i (fwdSrcs c s i insn) :=
  foldl_pres (FwdP n i) _ (fun s a hs => addDepNodeReg_P c a hin hs) _ s h

theorem fwdDsts_P (c : SchedCtx) {n i : Nat} {s : BuildState} (insn : SelInsn)
    (hin : i < n) (h : FwdP n i s) : FwdP n i (fwdDsts c s i insn) :=
  foldl_pres (FwdP n i) _ (fun s a hs => addDepNodeReg_P c a hin hs) _ s h

theorem fwdPred_P (c : SchedCtx) {n i : Nat} {s : BuildState} (insn : SelInsn)
    (hin : i < n) (h : FwdP n i s) : FwdP n i (fwdPred c s i insn) := by
  unfold fwdPred
  split
  · exact addDepNodeReg_P c _ hin h
  · exact h

theorem fwdCmp_P (c : SchedCtx) {n i : Nat} {s : BuildState} (insn : SelInsn)
    (hin : i < n) (h : FwdP n i s) : FwdP n i (fwdCmp c s i insn) := by
  unfold fwdCmp
  split
  · exact addDepNodeReg_P c _ hin h
  · exact h

theorem fwdAcc_P (c : SchedCtx) {n i : Nat} {s : BuildState} (insn : SelInsn)
    (hin : i < n) (h : FwdP n i s) : FwdP n i (fwdAcc c s i insn) := by
  unfold fwdAcc
  split
  · exact addDepNodeReg_P c _ hin h
  · exact h

theorem fwdRead_P (c : SchedCtx) {n i : Nat} {s : BuildState} (insn : SelInsn)
    (hin : i < n) (h : FwdP n i s) : FwdP n i (fwdRead c s i insn) := by
  unfold fwdRead
  split
  · exact addDep_fwd_P _ hin h (fun j hj => h.2.2 _ j hj)
  · exact h

theorem fwdWrite_P (c : SchedCtx) {n i : Nat} {s : BuildState} (insn : SelInsn)
    (hin : i < n) (h : FwdP n i s) : FwdP n i (fwdWrite c s i insn) := by
  unfold fwdWrite
  split
  · exact addDep_fwd_P _ hin h (fun j hj => h.2.2 _ j hj)
  · exact h

theorem fwdFence_P (c : SchedCtx) {n i : Nat} {s : BuildState} (insn : SelInsn)
    (hin : i < n) (h : FwdP n i s) : FwdP n i (fwdFence c s i insn) := by
  unfold fwdFence
  split
  · have h1 := addDep_fwd_P (s.lastW (getMemIndex c 0xfe)) hin h
      (fun j hj => h.2.2 _ j hj)
    exact addDep_fwd_P _ hin h1 (fun j hj => h1.2.2 _ j hj)
  · exact h

theorem setLastW_Q {n i : Nat} {s : BuildState} (idx : Nat)
    (h : FwdP n (i + 1) s) : FwdP n (i + 1) (setLastW s idx i) := by
  obtain ⟨hE, hC, hLW⟩ := h
  refine ⟨hE, hC, ?_⟩
  intro idx' j hj
  simp only [setLastW] at hj
  by_cases hidx : idx' = idx
  · rw [if_pos hidx] at hj
    cases hj
    omega
  · rw [if_neg hidx] at hj
    exact hLW idx' j hj

/-- Generic `updateWrites` preservation: any predicate stable under
recording `i` as last writer is preserved. -/
theorem updateWrites_pres (c : SchedCtx) (P : BuildState → Prop) (i : Nat)
    (insn : SelInsn) (hset : ∀ s idx, P s → P (setLastW s idx i)) :
    ∀ s, P s → P (updateWrites c s i insn) := by
  intro s h
  unfold updateWrites
  have h1 : P (uwDsts c s i insn) := by
    unfold uwDsts
    refine foldl_pres P _ (fun s a hs => ?_) _ s h
    split
    · exact hs
    · exact hset s _ hs
  have h2 : P (uwCmp c (uwDsts c s i insn) i insn) := by
    unfold uwCmp
    split
    · exact hset _ _ h1
    · exact h1
  have h3 : P (uwAcc c (uwCmp c (uwDsts c s i insn) i insn) i insn) := by
    unfold uwAcc
    split
    · exact hset _ _ h2
    · exact h2
  have h4 : P (uwWrite c (uwAcc c (uwCmp c (uwDsts c s i insn) i insn)
      i insn) i insn) := by
    unfold uwWrite
    split
    · exact hset _ _ h3
    · exact h3
  unfold uwFence
  split
  · exact hset _ _ (hset _ _ h4)
  · exact h4

theorem updateWrites_Q (c : SchedCtx) {n i : Nat} {s : BuildState}
    (insn : SelInsn) (h : FwdP n (i + 1) s) :
    FwdP n (i + 1) (updateWrites c s i insn) :=
  updateWrites_pres c (FwdP n (i + 1)) i insn
    (fun s idx hs => setLastW_Q idx hs) s h

theorem FwdP_mono {n i : Nat} {s : BuildState} (h : FwdP n i s) :
    FwdP n (i + 1) s :=
  ⟨h.1, h.2.1, fun idx j hj => Nat.lt_succ_of_lt (h.2.2 idx j hj)⟩

theorem fwdStep_P (c : SchedCtx) {n : Nat} (s : BuildState) (i : Nat)
    (insn : SelInsn) (hin : i < n) (h : FwdP n i s) :
    FwdP n (i + 1) (fwdStep c s i insn) := by
  unfold fwdStep
  apply updateWrites_Q
  apply FwdP_mono
  exact fwdFence_P c insn hin (fwdWrite_P c insn hin (fwdAcc_P c insn hin
    (fwdCmp_P c insn hin (fwdDsts_P c insn hin (fwdFence_P c insn hin
      (fwdRead_P c insn hin (fwdPred_P c insn hin
        (fwdSrcs_P c insn hin h))))))))

theorem buildFwd_P (c : SchedCtx) (insnAt : Nat → SelInsn) (n : Nat) :
    ∀ k, k ≤ n → FwdP n k (buildFwd c insnAt k initBuildState) := by
  intro k
  induction k with
  | zero =>
      intro _
      refine ⟨?_, ?_, ?_⟩
      · intro p q h; simp [buildFwd, initBuildState] at h
      · intro q; simp [buildFwd, initBuildState, sumCount]
      · intro idx j h; simp [buildFwd, initBuildState] at h
  | succ k ih =>
      intro hk
      exact fwdStep_P c _ k (insnAt k) (by omega) (ih (by omega))

/-- The invariant carried through the backward pass after instruction `i`
(writers recorded so far all lie in `[i, n)`). -/
def BackP (n i : Nat) (s : BuildState) : Prop :=
  EdgeOK n s ∧ CntOK n s ∧ LWmin s i n

theorem addDep_back_P {n i : Nat} {s : BuildState} (o1 : Option Nat)
    (hin : i < n) (h : BackP n (i + 1) s)
    (ho1 : ∀ j, o1 = some j → i + 1 ≤ j ∧ j < n) :
    BackP n (i + 1) (addDep s o1 (some i)) := by
  obtain ⟨hE, hC, hLW⟩ := h
  obtain ⟨hE', hC'⟩ := @addDep_pres n s o1 (some i) hE hC
    (fun a b ha hb => by
      injection hb with hb'
      subst hb'
      obtain ⟨h1, h2⟩ := ho1 a ha
      exact ⟨by omega, h2⟩)
  refine ⟨hE', hC', ?_⟩
  intro idx j hj
  rw [addDep_lastW] at hj
  exact hLW idx j hj

theorem addDepRegNode_P (c : SchedCtx) {n i : Nat} {s : BuildState}
    (reg : GenReg) (hin : i < n) (h : BackP n (i + 1) s) :
    BackP n (i + 1) (addDepRegNode c s reg i) := by
  unfold addDepRegNode
  split
  · exact h
  · exact addDep_back_P _ hin h (fun j hj => h.2.2 _ j hj)

/-- `addDependency(tracked last writer, node0)` with the writer looked up in
some state `s0` whose recorded writers satisfy the backward bound. -/
theorem addDep_back_lastW_P {n i : Nat} {s s0 : BuildState} (idx : Nat)
    (hin : i < n) (h : BackP n (i + 1) s) (h0 : LWmin s0 (i + 1) n) :
    BackP n (i + 1) (addDep s (s0.lastW idx) (some i)) :=
  addDep_back_P (s0.lastW idx) hin h (fun j hj => h0 idx j hj)

theorem backStep_P (c : SchedCtx) {n : Nat} (s : BuildState) (i : Nat)
    (insn : SelInsn) (hin : i < n) (h : BackP n (i + 1) s) :
    BackP n i (backStep c s i insn) := by
  unfold backStep
  have h1 : BackP n (i + 1) (backSrcs c s i insn) :=
    foldl_pres (BackP n (i + 1)) _
      (fun s a hs => addDepRegNode_P c a hin hs) _ s h
  have h2 : BackP n (i + 1) (backPred c (backSrcs c s i insn) i insn) := by
    unfold backPred
    split
    · exact addDepRegNode_P c _ hin h1
    · exact h1
  have h3 : BackP n (i + 1)
      (backRead c (backPred c (backSrcs c s i insn) i insn) i insn) := by
    unfold backRead
    split
    · exact addDep_back_P _ hin h2 (fun j hj => h2.2.2 _ j hj)
    · exact h2
  have h4 : BackP n (i + 1) (backFence c (backRead c (backPred c
      (backSrcs c s i insn) i insn) i insn) i insn) := by
    unfold backFence
    split
    · exact addDep_back_lastW_P _ hin
        (addDep_back_lastW_P _ hin h3 h3.2.2)
        (addDep_back_lastW_P _ hin h3 h3.2.2).2.2
    · exact h3
  -- weaken the writer bound from `i + 1` to `i` and push through
  -- `updateWrites`, which records `i` itself
  have h4' : BackP n i (backFence c (backRead c (backPred c
      (backSrcs c s i insn) i insn) i insn) i insn) :=
    ⟨h4.1, h4.2.1, fun idx j hj => by
      obtain ⟨ha, hb⟩ := h4.2.2 idx j hj
      exact ⟨by omega, hb⟩⟩
  refine updateWrites_pres c (BackP n i) i insn (fun s idx hs => ?_) _ h4'
  refine ⟨hs.1, hs.2.1, ?_⟩
  intro idx' j hj
  simp only [setLastW] at hj
  by_cases hidx : idx' = idx
  · rw [if_pos hidx] at hj
    cases hj
    omega
  · rw [if_neg hidx] at hj
    exact hs.2.2 idx' j hj

/-- The backward pass, run from `k` down to `0`, carries the invariant
down to `0` (its tail recursion consumes the bound). -/
theorem buildBack_P (c : SchedCtx) {n : Nat} (insnAt : Nat → SelInsn) :
    ∀ k s, k ≤ n → BackP n k s → BackP n 0 (buildBack c insnAt k s) := by
  intro k
  induction k with
  | zero => intro s _ h; exact h
  | succ k ih =>
      intro s hk h
      exact ih _ (by omega) (backStep_P c s k (insnAt k) (by omega) h)

/-- Adding a concrete in-order edge preserves the structural invariants. -/
theorem addDep_PEC {n : Nat} {s : BuildState} {a b : Nat}
    (h : EdgeOK n s ∧ CntOK n s) (hba : b < a) (han : a < n) :
    EdgeOK n (addDep s (some a) (some b)) ∧
      CntOK n (addDep s (some a) (some b)) :=
  addDep_pres h.1 h.2 (fun x y hx hy => by
    injection hx with hx'
    injection hy with hy'
    subst hx'
    subst hy'
    exact ⟨hba, han⟩)

theorem barBefore_pres {n : Nat} {i : Nat} (hin : i < n) :
    ∀ (j : Nat) (s : BuildState), j ≤ i → EdgeOK n s ∧ CntOK n s →
      EdgeOK n (barBefore s i j) ∧ CntOK n (barBefore s i j) := by
  intro j
  induction j with
  | zero => intro s _ h; exact h
  | succ j ih =>
      intro s hj h
      exact addDep_PEC (ih s (by omega) h) (by omega) hin

theorem barAfterGo_pres {n : Nat} {i : Nat} :
    ∀ (k : Nat) (s : BuildState), i + 1 + k ≤ n → EdgeOK n s ∧ CntOK n s →
      EdgeOK n (barAfterGo s i k) ∧ CntOK n (barAfterGo s i k) := by
  intro k
  induction k with
  | zero => intro s _ h; exact h
  | succ k ih =>
      intro s hk h
      exact addDep_PEC (ih s (by omega) h) (by omega) (by omega)

theorem makeBarrier_pres {n : Nat} {i : Nat} (s : BuildState) (hin : i < n)
    (h : EdgeOK n s ∧ CntOK n s) :
    EdgeOK n (makeBarrier s i n) ∧ CntOK n (makeBarrier s i n) :=
  barAfterGo_pres _ _ (by omega) (barBefore_pres hin i s le_rfl h)

theorem barrierPass_pres {n : Nat} (insnAt : Nat → SelInsn) :
    ∀ (k : Nat) (s : BuildState), k ≤ n → EdgeOK n s ∧ CntOK n s →
      EdgeOK n (barrierPass insnAt n k s) ∧
        CntOK n (barrierPass insnAt n k s) := by
  intro k
  induction k with
  | zero => intro s _ h; exact h
  | succ k ih =>
      intro s hk h
      simp only [barrierPass]
      split
      · exact makeBarrier_pres _ (by omega) (ih s (by omega) h)
      · exact ih s (by omega) h

/-- The DAG produced by `buildDAG` satisfies the structural invariants:
every edge runs from an earlier to a later in-range instruction, and every
reference count equals the number of incoming edge occurrences. -/
theorem buildDAG_PEC (c : SchedCtx) (block : List SelInsn) :
    (∀ p q, q ∈ (buildDAG c block).children p →
      p < q ∧ q < block.length) ∧
    (∀ q, (buildDAG c block).refNum q =
      sumCount block.length (buildDAG c block).children q) := by
  have hf := buildFwd_P c (fun i => block.getD i default) block.length
    block.length le_rfl
  have hcl : BackP block.length block.length
      (clearLastW (buildFwd c (fun i => block.getD i default) block.length
        initBuildState)) :=
    ⟨hf.1, hf.2.1, fun idx j hj => by simp [clearLastW] at hj⟩
  have hb := buildBack_P c (fun i => block.getD i default) block.length _
    le_rfl hcl
  have hp := barrierPass_pres (fun i => block.getD i default)
    block.length _ le_rfl ⟨hb.1, hb.2.1⟩
  exact ⟨hp.1, hp.2⟩

/-! ### Barrier edges (claim C3) -/

/-- Under the edge invariant no node lists itself as a child, so the (broken)
self-scan `dependsOn` is always false and `addDependency` never skips an
in-order edge. -/
theorem dependsOn_false_of_EdgeOK {n : Nat} {s : BuildState}
    (hE : EdgeOK n s) (i j : Nat) : dependsOn s i j = false := by
  unfold dependsOn
  rw [List.contains_eq_any_beq]
  by_contra hc
  rw [Bool.not_eq_false, List.any_eq_true]  at hc
  obtain ⟨x, hx, hbeq⟩ := hc
  have hxi : i = x := by simpa using hbeq
  subst hxi
  exact absurd (hE i i hx).1 (lt_irrefl i)

theorem addDep_mem_new {n : Nat} {s : BuildState} {a b : Nat}
    (hE : EdgeOK n s) (hne : a ≠ b) :
    a ∈ (addDep s (some a) (some b)).children b := by
  have hd := dependsOn_false_of_EdgeOK hE a b
  simp only [addDep, if_pos (And.intro hne hd)]
  simp

theorem barBefore_mono {s : BuildState} {i p q : Nat} (h : q ∈ s.children p) :
    ∀ j, q ∈ (barBefore s i j).children p := by
  intro j
  induction j with
  | zero => exact h
  | succ j ih => exact addDep_children_mono ih

theorem barAfterGo_mono {s : BuildState} {i p q : Nat}
    (h : q ∈ s.children p) : ∀ k, q ∈ (barAfterGo s i k).children p := by
  intro k
  induction k with
  | zero => exact h
  | succ k ih => exact addDep_children_mono ih

theorem barrierPass_mono {p q n : Nat} (insnAt : Nat → SelInsn) :
    ∀ (k : Nat) (s : BuildState), q ∈ s.children p →
      q ∈ (barrierPass insnAt n k s).children p := by
  intro k
  induction k with
  | zero => intro s h; exact h
  | succ k ih =>
      intro s h
      simp only [barrierPass]
      split
      · exact barAfterGo_mono (barBefore_mono (ih s h) _) _
      · exact ih s h

theorem barBefore_mem {n i : Nat} (hin : i < n) :
    ∀ (j : Nat) (s : BuildState), j ≤ i → EdgeOK n s ∧ CntOK n s →
      ∀ j0, j0 < j → i ∈ (barBefore s i j).children j0 := by
  intro j
  induction j with
  | zero => intro s _ _ j0 hj0; omega
  | succ j ih =>
      intro s hj h j0 hj0
      by_cases hcase : j0 = j
      · subst hcase
        exact addDep_mem_new (barBefore_pres hin j0 s (by omega) h).1
          (by omega)
      · exact addDep_children_mono (ih s (by omega) h j0 (by omega))

theorem barAfterGo_mem {n i : Nat} :
    ∀ (k : Nat) (s : BuildState), i + 1 + k ≤ n → EdgeOK n s ∧ CntOK n s →
      ∀ m, m < k → i + 1 + m ∈ (barAfterGo s i k).children i := by
  intro k
  induction k with
  | zero => intro s _ _ m hm; omega
  | succ k ih =>
      intro s hk h m hm
      by_cases hcase : m = k
      · subst hcase
        exact addDep_mem_new (barAfterGo_pres m s (by omega) h).1 (by omega)
      · exact addDep_children_mono (ih s (by omega) h m (by omega))

theorem makeBarrier_mem {n i : Nat} (s : BuildState) (hin : i < n)
    (h : EdgeOK n s ∧ CntOK n s) :
    (∀ j0, j0 < i → i ∈ (makeBarrier s i n).children j0) ∧
    (∀ q, i < q → q < n → q ∈ (makeBarrier s i n).children i) := by
  constructor
  · intro j0 hj0
    exact barAfterGo_mono
      (barBefore_mem hin i s le_rfl h j0 hj0) _
  · intro q hiq hqn
    have hq : q = i + 1 + (q - i - 1) := by omega
    rw [hq]
    exact barAfterGo_mem (n - (i + 1))
      (barBefore s i i) (by omega)
      (barBefore_pres hin i s le_rfl h) (q - i - 1) (by omega)

theorem barrierPass_mem {n : Nat} (insnAt : Nat → SelInsn) :
    ∀ (k : Nat) (s : BuildState), k ≤ n → EdgeOK n s ∧ CntOK n s →
      ∀ i, i < k → isBarrierInsn (insnAt i) = true →
        (∀ j0, j0 < i → i ∈ (barrierPass insnAt n k s).children j0) ∧
        (∀ q, i < q → q < n →
          q ∈ (barrierPass insnAt n k s).children i) := by
  intro k
  induction k with
  | zero => intro s _ _ i hi; omega
  | succ k ih =>
      intro s hk h i hi hbar
      by_cases hcase : i = k
      · subst hcase
        simp only [barrierPass, hbar, if_pos]
        exact makeBarrier_mem _ (by omega)
          (barrierPass_pres insnAt i s (by omega) h)
      · have hik : i < k := by omega
        obtain ⟨h1, h2⟩ := ih s (by omega) h i hik hbar
        simp only [barrierPass]
        split
        · constructor
          · intro j0 hj0
            exact barAfterGo_mono (barBefore_mono (h1 j0 hj0) _) _
          · intro q hiq hqn
            exact barAfterGo_mono (barBefore_mono (h2 q hiq hqn) _) _
        · exact ⟨h1, h2⟩

def c3ctx : SchedCtx := ⟨.PRE_ALLOC, 8, id, 4⟩

def c3insn : SelInsn := default

def c3label : SelInsn :=
  { (default : SelInsn) with opcode := .SEL_OP_LABEL, labelFlag := true }

def c3block : List SelInsn := [c3insn, c3label, c3insn]

/-- C3: in the DAG built by `buildDAG` for any block, every instruction that
is a branch, a label or the end-of-thread instruction has a dependency edge
to every instruction preceding it in the block (the barrier is listed among
each predecessor's children) and an edge from every following instruction
(each successor is listed among the barrier's children), so no instruction
can be scheduled across it in either direction. -/
theorem buildDAG_barriers (c : SchedCtx) (block : List SelInsn)
    (i : Nat) (hi : i < block.length)
    (hbar : isBarrierInsn (block.getD i default) = true) :
    (∀ j, j < i → i ∈ (buildDAG c block).children j) ∧
    (∀ q, i < q → q < block.length →
      q ∈ (buildDAG c block).children i) := by
  have hf := buildFwd_P c (fun k => block.getD k default) block.length
    block.length le_rfl
  have hcl : BackP block.length block.length
      (clearLastW (buildFwd c (fun k => block.getD k default) block.length
        initBuildState)) :=
    ⟨hf.1, hf.2.1, fun idx j hj => by simp [clearLastW] at hj⟩
  have hb := buildBack_P c (fun k => block.getD k default) block.length _
    le_rfl hcl
  exact barrierPass_mem (fun k => block.getD k default) block.length _
    le_rfl ⟨hb.1, hb.2.1⟩ i hi hbar

/-- Witness for `buildDAG_barriers`: a three-instruction block whose middle
instruction is a label; it depends on instruction 0 and instruction 2
depends on it. -/
theorem buildDAG_barriers_witness :
    (1 < c3block.length ∧ isBarrierInsn (c3block.getD 1 default) = true) ∧
    ((∀ j, j < 1 → 1 ∈ (buildDAG c3ctx c3block).children j) ∧
     (∀ q, 1 < q → q < c3block.length →
        q ∈ (buildDAG c3ctx c3block).children 1)) :=
  ⟨⟨by decide, by decide⟩,
   buildDAG_barriers c3ctx c3block 1 (by decide) (by decide)⟩

/-! ### The scheduling engine: invariants and termination -/

/-- Characterization of `processChildren`: when no count underflows, every
reference count drops by the number of occurrences, and the ready list gains
exactly (once each) the children whose count reaches zero. -/
theorem processChildren_spec :
    ∀ (ch : List Nat) (rf : Nat → Nat) (rd : List Nat),
      (∀ q, ch.count q ≤ rf q) →
      (∀ q, (processChildren ch rf rd).1 q = rf q - ch.count q) ∧
      ∃ extra, (processChildren ch rf rd).2.1 = rd ++ extra ∧
        extra.Nodup ∧
        ∀ q, q ∈ extra ↔ (q ∈ ch ∧ rf q = ch.count q) := by
  intro ch
  induction ch with
  | nil =>
      intro rf rd _
      exact ⟨fun q => by simp [processChildren],
        [], by simp [processChildren], List.nodup_nil, fun q => by simp⟩
  | cons c rest ih =>
      intro rf rd hpre
      have hqc : ∀ q, (c :: rest).count q =
          rest.count q + if q = c then 1 else 0 := by
        intro q
        by_cases hq : q = c <;> simp [List.count_cons, hq]
      have hcc : rest.count c + 1 ≤ rf c := by
        have := hpre c
        rw [hqc c] at this
        simpa using this
      have hpre' : ∀ q, rest.count q ≤ if q = c then rf c - 1 else rf q := by
        intro q
        by_cases hq : q = c
        · subst hq
          simp
          omega
        · have := hpre q
          rw [hqc q] at this
          simp only [if_neg hq]
          simp only [if_neg hq] at this
          omega
      by_cases h1 : rf c = 1
      · have hstep : processChildren (c :: rest) rf rd =
            processChildren rest (fun k => if k = c then rf c - 1 else rf k)
              (rd ++ [c]) := by
          simp [processChildren, h1]
        obtain ⟨hcount, extra, hready, hnd, hmem⟩ := ih _ (rd ++ [c]) hpre'
        have hcount' : ∀ q, (processChildren rest
            (fun k => if k = c then rf c - 1 else rf k) (rd ++ [c])).1 q =
            (if q = c then rf c - 1 else rf q) - rest.count q :=
          fun q => hcount q
        have hmem' : ∀ q, q ∈ extra ↔ (q ∈ rest ∧
            (if q = c then rf c - 1 else rf q) = rest.count q) :=
          fun q => hmem q
        have hc0 : rest.count c = 0 := by omega
        have hcnotin : c ∉ rest := by
          intro hcin
          have : 0 < rest.count c := List.count_pos_iff_mem.mpr hcin
          omega
        rw [hstep]
        refine ⟨?_, c :: extra, ?_, ?_, ?_⟩
        · intro q
          rw [hcount' q, hqc q]
          by_cases hq : q = c
          · subst hq
            simp
            omega
          · simp only [if_neg hq]
            omega
        · rw [hready, List.append_assoc, List.singleton_append]
        · refine List.nodup_cons.mpr ⟨?_, hnd⟩
          intro hcx
          obtain ⟨hcr, _⟩ := (hmem' c).mp hcx
          exact hcnotin hcr
        · intro q
          rw [List.mem_cons, hmem' q, hqc q]
          by_cases hq : q = c
          · subst hq
            simp
            omega
          · simp only [if_neg hq, Nat.add_zero, List.mem_cons]
            constructor
            · intro h
              rcases h with h | h
              · exact absurd h hq
              · exact ⟨Or.inr h.1, h.2⟩
            · intro h
              rcases h.1 with h' | h'
              · exact absurd h' hq
              · exact Or.inr ⟨h', h.2⟩
      · rcases hpc : processChildren rest
            (fun k => if k = c then rf c - 1 else rf k) rd with ⟨rf', rd', kept⟩
        have hstep : processChildren (c :: rest) rf rd =
            (rf', rd', c :: kept) := by
          simp [processChildren, h1, hpc]
        obtain ⟨hcount, extra, hready, hnd, hmem⟩ := ih _ rd hpre'
        rw [hpc] at hcount hready
        have hcount' : ∀ q, rf' q =
            (if q = c then rf c - 1 else rf q) - rest.count q :=
          fun q => hcount q
        have hready' : rd' = rd ++ extra := hready
        have hmem' : ∀ q, q ∈ extra ↔ (q ∈ rest ∧
            (if q = c then rf c - 1 else rf q) = rest.count q) :=
          fun q => hmem q
        rw [hstep]
        refine ⟨?_, extra, hready', hnd, ?_⟩
        · intro q
          show rf' q = rf q - (c :: rest).count q
          rw [hcount' q, hqc q]
          by_cases hq : q = c
          · subst hq
            simp
            omega
          · simp only [if_neg hq]
            omega
        · intro q
          show q ∈ extra ↔ (q ∈ c :: rest ∧ rf q = (c :: rest).count q)
          rw [hmem' q, hqc q]
          by_cases hq : q = c
          · subst hq
            simp
            constructor
            · rintro ⟨-, hb⟩
              omega
            · intro hb
              have hpos : 0 < rest.count q := by omega
              exact ⟨List.count_pos_iff_mem.mp hpos, by omega⟩
          · simp only [if_neg hq, Nat.add_zero, List.mem_cons]
            constructor
            · intro h
              exact ⟨Or.inr h.1, h.2⟩
            · intro h
              rcases h.1 with h' | h'
              · exact absurd h' hq
              · exact ⟨h', h.2⟩

/-- The invariant of the scheduling loop, relative to the original DAG
`ch0` with `n` instructions.  `A` is the list of conceptually active nodes
(the not-yet-swept part of the snapshot plus the rebuilt active list); a
node is retired when it is in `out` but no longer in `A`. -/
structure SInv (n : Nat) (ch0 : Nat → List Nat) (A : List Nat)
    (s : SchedState) : Prop where
  hrem : s.remaining + s.out.length = n
  hnodupO : s.out.Nodup
  houtlt : ∀ q ∈ s.out, q < n
  hnodupR : s.ready.Nodup
  hready : ∀ q ∈ s.ready, q < n ∧ q ∉ s.out
  hnodupA : A.Nodup
  hAsub : ∀ p ∈ A, p ∈ s.out
  hch : ∀ p, (p ∉ s.out ∨ p ∈ A) → s.children p = ch0 p
  hcnt : ∀ q, s.refNum q = ∑ p ∈ Finset.range n,
    (if p ∈ s.out ∧ p ∉ A then 0 else (ch0 p).count q)
  hzero : ∀ q, q < n → ((q ∈ s.ready ∨ q ∈ s.out) ↔ s.refNum q = 0)
  horder : ∀ p q, q ∈ s.out → q ∈ ch0 p →
    ∃ l1 l2, s.out = l1 ++ p :: l2 ∧ q ∈ l2

/-- The invariant only sees the conceptually active list up to permutation. -/
theorem SInv_perm {n : Nat} {ch0 : Nat → List Nat} {A A' : List Nat}
    {s : SchedState} (hp : A.Perm A') (h : SInv n ch0 A s) :
    SInv n ch0 A' s := by
  obtain ⟨h1, h2, h3, h4, h5, h6, h7, h8, h9, h10, h11⟩ := h
  refine ⟨h1, h2, h3, h4, h5, hp.nodup_iff.mp h6,
    fun p hpA => h7 p (hp.mem_iff.mpr hpA),
    fun p hpc => h8 p (by
      rcases hpc with h | h
      · exact Or.inl h
      · exact Or.inr (hp.mem_iff.mpr h)), ?_, h10, h11⟩
  intro q
  rw [h9 q]
  refine Finset.sum_congr rfl (fun p _ => ?_)
  by_cases hc : p ∈ s.out ∧ p ∉ A
  · rw [if_pos hc, if_pos ⟨hc.1, fun hx => hc.2 (hp.mem_iff.mpr hx)⟩]
  · rw [if_neg hc, if_neg (fun hc' =>
      hc ⟨hc'.1, fun hx => hc'.2 (hp.mem_iff.mp hx)⟩)]

/-- Retiring an active node `p` preserves the invariant, with `p` moving
to the retired set. -/
theorem retireNode_inv {n : Nat} {ch0 : Nat → List Nat} {B : List Nat}
    {s : SchedState} (hE : ∀ p q, q ∈ ch0 p → p < q ∧ q < n) (p : Nat)
    (h : SInv n ch0 (p :: B) s) : SInv n ch0 B (retireNode p s) := by
  have hpout : p ∈ s.out := h.hAsub p (List.mem_cons_self _ _)
  have hpn : p < n := h.houtlt p hpout
  have hpB : p ∉ B := (List.nodup_cons.mp h.hnodupA).1
  have hchp : s.children p = ch0 p :=
    h.hch p (Or.inr (List.mem_cons_self _ _))
  -- the reference counts dominate the counts of p's children
  have hpre : ∀ q, (s.children p).count q ≤ s.refNum q := by
    intro q
    rw [h.hcnt q, hchp]
    have hterm : (if p ∈ s.out ∧ p ∉ p :: B then 0
        else (ch0 p).count q) = (ch0 p).count q := by
      rw [if_neg]
      intro hc
      exact hc.2 (List.mem_cons_self _ _)
    calc (ch0 p).count q
        = (if p ∈ s.out ∧ p ∉ p :: B then 0 else (ch0 p).count q) :=
          hterm.symm
      _ ≤ ∑ x ∈ Finset.range n,
            (if x ∈ s.out ∧ x ∉ p :: B then 0 else (ch0 x).count q) :=
          @Finset.single_le_sum Nat Nat _
            (fun x => if x ∈ s.out ∧ x ∉ p :: B then 0 else (ch0 x).count q)
            (Finset.range n) (fun x _ => Nat.zero_le _) p
            (Finset.mem_range.mpr hpn)
  obtain ⟨hcount, extra, hready, hnd, hmem⟩ :=
    processChildren_spec (s.children p) s.refNum s.ready hpre
  -- unpack the retired state
  rcases hq : processChildren (s.children p) s.refNum s.ready
    with ⟨rf, rd, kept⟩
  rw [hq] at hcount hready
  have hmem' : ∀ q, q ∈ extra ↔
      (q ∈ ch0 p ∧ s.refNum q = (ch0 p).count q) := by
    intro q
    rw [hmem q, hchp]
  have hstate : retireNode p s =
      { s with
        refNum := rf
        ready := rd
        children := fun k => if k = p then kept else s.children k } := by
    rw [retireNode, hq]
  have hcount' : ∀ q, rf q = s.refNum q - (ch0 p).count q := by
    intro q
    rw [← hchp]
    exact hcount q
  have hready2 : rd = s.ready ++ extra := hready
  have hextra_lt : ∀ q ∈ extra, q < n := by
    intro q hqx
    exact (hE p q ((hmem' q).mp hqx).1).2
  have hextra_pos : ∀ q ∈ extra, 0 < s.refNum q := by
    intro q hqx
    obtain ⟨hqch, hqe⟩ := (hmem' q).mp hqx
    have : 0 < (ch0 p).count q := List.count_pos_iff_mem.mpr hqch
    omega
  have hextra_notout : ∀ q ∈ extra, q ∉ s.out := by
    intro q hqx hqo
    have h0 := (h.hzero q (hextra_lt q hqx)).mp (Or.inr hqo)
    have := hextra_pos q hqx
    omega
  have hextra_notready : ∀ q ∈ extra, q ∉ s.ready := by
    intro q hqx hqr
    have h0 := (h.hzero q (hextra_lt q hqx)).mp (Or.inl hqr)
    have := hextra_pos q hqx
    omega
  rw [hstate]
  refine ⟨h.hrem, h.hnodupO, h.houtlt, ?_, ?_, (List.nodup_cons.mp h.hnodupA).2,
    fun x hx => h.hAsub x (List.mem_cons_of_mem _ hx), ?_, ?_, ?_, h.horder⟩
  · rw [hready2]
    refine List.Nodup.append h.hnodupR hnd ?_
    intro a ha hax
    exact hextra_notready a hax ha
  · intro q hqr
    rw [hready2, List.mem_append] at hqr
    rcases hqr with hqr | hqr
    · exact h.hready q hqr
    · exact ⟨hextra_lt q hqr, hextra_notout q hqr⟩
  · intro x hx
    have hxp : x ≠ p := by
      rcases hx with hx | hx
      · intro he; subst he; exact hx hpout
      · intro he; subst he; exact hpB hx
    simp only [if_neg hxp]
    refine h.hch x ?_
    rcases hx with hx | hx
    · exact Or.inl hx
    · exact Or.inr (List.mem_cons_of_mem _ hx)
  · intro q
    show rf q = ∑ x ∈ Finset.range n,
      (if x ∈ s.out ∧ x ∉ B then 0 else (ch0 x).count q)
    rw [hcount' q, h.hcnt q]
    have hsplit : ∀ x, (if x ∈ s.out ∧ x ∉ p :: B then 0
          else (ch0 x).count q) =
        (if x ∈ s.out ∧ x ∉ B then 0 else (ch0 x).count q) +
          (if x = p then (ch0 p).count q else 0) := by
      intro x
      by_cases hxp : x = p
      · subst hxp
        rw [if_neg (fun hc => hc.2 (List.mem_cons_self _ _)),
          if_pos ⟨hpout, hpB⟩, if_pos rfl]
        omega
      · have hmemiff : (x ∈ s.out ∧ x ∉ p :: B) ↔ (x ∈ s.out ∧ x ∉ B) := by
          constructor
          · intro hc
            exact ⟨hc.1, fun hxB => hc.2 (List.mem_cons_of_mem _ hxB)⟩
          · intro hc
            refine ⟨hc.1, fun hxpB => ?_⟩
            rcases List.mem_cons.mp hxpB with he | hxB
            · exact hxp he
            · exact hc.2 hxB
        rw [if_neg hxp, Nat.add_zero]
        by_cases hc : x ∈ s.out ∧ x ∉ B
        · rw [if_pos (hmemiff.mpr hc), if_pos hc]
        · rw [if_neg (fun hc' => hc (hmemiff.mp hc')), if_neg hc]
    rw [Finset.sum_congr rfl (fun x _ => hsplit x), Finset.sum_add_distrib,
      Finset.sum_ite_eq' (Finset.range n) p (fun _ => (ch0 p).count q),
      if_pos (Finset.mem_range.mpr hpn)]
    omega
  · intro q hqn
    have hle : (ch0 p).count q ≤ s.refNum q := by
      have := hpre q
      rwa [hchp] at this
    show (q ∈ rd ∨ q ∈ s.out) ↔ rf q = 0
    rw [hcount' q, hready2]
    constructor
    · intro hc
      rcases hc with hc | hc
      · rcases List.mem_append.mp hc with hc | hc
        · have := (h.hzero q hqn).mp (Or.inl hc)
          omega
        · have := ((hmem' q).mp hc).2
          omega
      · have := (h.hzero q hqn).mp (Or.inr hc)
        omega
    · intro hc
      by_cases hzero : s.refNum q = 0
      · rcases (h.hzero q hqn).mpr hzero with hr | ho
        · exact Or.inl (List.mem_append.mpr (Or.inl hr))
        · exact Or.inr ho
      · have hqe : s.refNum q = (ch0 p).count q := by omega
        have hqch : q ∈ ch0 p := by
          have : 0 < (ch0 p).count q := by omega
          exact List.count_pos_iff_mem.mp this
        exact Or.inl (List.mem_append.mpr
          (Or.inr ((hmem' q).mpr ⟨hqch, hqe⟩)))

/-- The invariant never inspects the stored active list. -/
theorem SInv_active_irrel {n : Nat} {ch0 : Nat → List Nat} {A : List Nat}
    {s : SchedState} {X : List Nat} (h : SInv n ch0 A s) :
    SInv n ch0 A { s with active := X } :=
  ⟨h.hrem, h.hnodupO, h.houtlt, h.hnodupR, h.hready, h.hnodupA, h.hAsub,
    h.hch, h.hcnt, h.hzero, h.horder⟩

theorem retireGo_inv {n : Nat} {ch0 : Nat → List Nat}
    (hE : ∀ p q, q ∈ ch0 p → p < q ∧ q < n) :
    ∀ (l : List Nat) (s : SchedState), SInv n ch0 (l ++ s.active) s →
      SInv n ch0 (retireGo l s).active (retireGo l s) := by
  intro l
  induction l with
  | nil => intro s h; exact h
  | cons p rest ih =>
      intro s h
      by_cases hc : s.retiredCycle p ≤ s.cycle
      · simp only [retireGo, if_pos hc]
        exact ih (retireNode p s) (retireNode_inv hE p h)
      · simp only [retireGo, if_neg hc]
        refine ih _ (SInv_active_irrel (SInv_perm ?_ h))
        rw [List.cons_append, ← List.append_assoc]
        exact (List.perm_append_singleton p (rest ++ s.active)).symm

theorem retirePhase_inv {n : Nat} {ch0 : Nat → List Nat} {s : SchedState}
    (hE : ∀ p q, q ∈ ch0 p → p < q ∧ q < n) (h : SInv n ch0 s.active s) :
    SInv n ch0 (retirePhase s).active (retirePhase s) := by
  apply retireGo_inv hE
  rw [List.append_nil]
  exact SInv_active_irrel h

/-- The retirement sweep never touches the clock, the retirement clocks,
the emitted list or the remaining count, and its final active list is the
still-pending part of the snapshot appended to the rebuilt list. -/
theorem retireGo_shape :
    ∀ (l : List Nat) (s : SchedState),
      (retireGo l s).cycle = s.cycle ∧
      (retireGo l s).retiredCycle = s.retiredCycle ∧
      (retireGo l s).out = s.out ∧
      (retireGo l s).remaining = s.remaining ∧
      (retireGo l s).active = s.active ++
        l.filter (fun p => decide (s.cycle < s.retiredCycle p)) := by
  intro l
  induction l with
  | nil => intro s; exact ⟨rfl, rfl, rfl, rfl, by simp [retireGo]⟩
  | cons p rest ih =>
      intro s
      by_cases hc : s.retiredCycle p ≤ s.cycle
      · simp only [retireGo, if_pos hc]
        obtain ⟨h1, h2, h3, h4, h5⟩ := ih (retireNode p s)
        have ha : (retireNode p s).active = s.active := rfl
        have hcyc : (retireNode p s).cycle = s.cycle := rfl
        have hrc : (retireNode p s).retiredCycle = s.retiredCycle := rfl
        have hout : (retireNode p s).out = s.out := rfl
        have hrm : (retireNode p s).remaining = s.remaining := rfl
        refine ⟨by rw [h1, hcyc], by rw [h2, hrc], by rw [h3, hout],
          by rw [h4, hrm], ?_⟩
        rw [h5, ha, hcyc, hrc]
        have hnp : ¬ s.cycle < s.retiredCycle p := by omega
        simp [List.filter_cons, hnp]
      · simp only [retireGo, if_neg hc]
        obtain ⟨h1, h2, h3, h4, h5⟩ := ih { s with active := s.active ++ [p] }
        refine ⟨h1, h2, h3, h4, ?_⟩
        rw [h5]
        have hyp : s.cycle < s.retiredCycle p := by omega
        simp [List.filter_cons, hyp, List.append_assoc]

theorem retirePhase_shape (s : SchedState) :
    (retirePhase s).cycle = s.cycle ∧
    (retirePhase s).retiredCycle = s.retiredCycle ∧
    (retirePhase s).out = s.out ∧
    (retirePhase s).remaining = s.remaining ∧
    (retirePhase s).active =
      s.active.filter (fun p => decide (s.cycle < s.retiredCycle p)) := by
  obtain ⟨h1, h2, h3, h4, h5⟩ := retireGo_shape s.active { s with active := [] }
  exact ⟨h1, h2, h3, h4, by simpa using h5⟩

/-- While any unscheduled node remains, the remaining count is positive. -/
theorem SInv_remaining_pos {n : Nat} {ch0 : Nat → List Nat} {A : List Nat}
    {s : SchedState} (h : SInv n ch0 A s) {x : Nat} (hx : x < n)
    (hxo : x ∉ s.out) : 0 < s.remaining := by
  by_contra h0
  have hlen : s.out.length = n := by
    have := h.hrem
    omega
  have hsub : s.out.toFinset ⊆ Finset.range n := by
    intro q hq
    exact Finset.mem_range.mpr (h.houtlt q (List.mem_toFinset.mp hq))
  have hcard : s.out.toFinset.card = n := by
    rw [List.toFinset_card_of_nodup h.hnodupO, hlen]
  have heq : s.out.toFinset = Finset.range n :=
    Finset.eq_of_subset_of_card_le hsub (by rw [hcard, Finset.card_range])
  have hmem : x ∈ s.out.toFinset := by
    rw [heq]
    exact Finset.mem_range.mpr hx
  exact hxo (List.mem_toFinset.mp hmem)

/-- Moving a ready node `x` to the back of `out` and `active` preserves the
invariant, for any clock update. -/
theorem SInv_pick_core {n : Nat} {ch0 : Nat → List Nat}
    (hE : ∀ p q, q ∈ ch0 p → p < q ∧ q < n) {s : SchedState}
    (h : SInv n ch0 s.active s) {pre post : List Nat} {x : Nat}
    (hr : s.ready = pre ++ x :: post) (cyc : Nat) (rc : Nat → Nat) :
    SInv n ch0 (s.active ++ [x])
      { s with
        cycle := cyc
        ready := pre ++ post
        active := s.active ++ [x]
        retiredCycle := rc
        out := s.out ++ [x]
        remaining := s.remaining - 1 } := by
  have hxr : x ∈ s.ready := by
    rw [hr]
    exact List.mem_append.mpr (Or.inr (List.mem_cons_self _ _))
  obtain ⟨hxn, hxo⟩ := h.hready x hxr
  have hrpos : 0 < s.remaining := SInv_remaining_pos h hxn hxo
  have hx0 : s.refNum x = 0 := (h.hzero x hxn).mp (Or.inl hxr)
  have hxa : x ∉ s.active := fun hxa => hxo (h.hAsub x hxa)
  have hnR : (pre ++ post).Nodup ∧ x ∉ pre ∧ x ∉ post := by
    have := h.hnodupR
    rw [hr] at this
    rw [List.nodup_append] at this
    obtain ⟨h1, h2, h3⟩ := this
    rw [List.nodup_cons] at h2
    refine ⟨List.nodup_append.mpr ⟨h1, h2.2, ?_⟩, ?_, h2.1⟩
    · intro a ha hap
      exact h3 ha (List.mem_cons_of_mem _ hap)
    · intro hxp
      exact h3 hxp (List.mem_cons_self _ _)
  refine ⟨?_, ?_, ?_, hnR.1, ?_, ?_, ?_, ?_, ?_, ?_, ?_⟩
  · show s.remaining - 1 + (s.out ++ [x]).length = n
    rw [List.length_append, List.length_singleton]
    have := h.hrem
    omega
  · show (s.out ++ [x]).Nodup
    rw [List.nodup_append]
    exact ⟨h.hnodupO, List.nodup_singleton x,
      fun a ha hax => by rw [List.mem_singleton] at hax; subst hax; exact hxo ha⟩
  · intro q hq
    rcases List.mem_append.mp hq with hq | hq
    · exact h.houtlt q hq
    · rw [List.mem_singleton] at hq
      subst hq
      exact hxn
  · intro q hq
    have hqr : q ∈ s.ready := by
      rw [hr]
      rcases List.mem_append.mp hq with hq | hq
      · exact List.mem_append.mpr (Or.inl hq)
      · exact List.mem_append.mpr (Or.inr (List.mem_cons_of_mem _ hq))
    have hqx : q ≠ x := by
      intro he
      subst he
      rcases List.mem_append.mp hq with hq | hq
      · exact hnR.2.1 hq
      · exact hnR.2.2 hq
    obtain ⟨hq1, hq2⟩ := h.hready q hqr
    refine ⟨hq1, fun hqo => ?_⟩
    rcases List.mem_append.mp hqo with hqo | hqo
    · exact hq2 hqo
    · rw [List.mem_singleton] at hqo
      exact hqx hqo
  · show (s.active ++ [x]).Nodup
    rw [List.nodup_append]
    exact ⟨h.hnodupA, List.nodup_singleton x,
      fun a ha hax => by rw [List.mem_singleton] at hax; subst hax; exact hxa ha⟩
  · intro p hp
    rcases List.mem_append.mp hp with hp | hp
    · exact List.mem_append.mpr (Or.inl (h.hAsub p hp))
    · exact List.mem_append.mpr (Or.inr hp)
  · intro p hp
    show s.children p = ch0 p
    refine h.hch p ?_
    rcases hp with hp | hp
    · by_cases hpx : p = x
      · subst hpx
        exact Or.inl hxo
      · refine Or.inl (fun hpo => hp (List.mem_append.mpr (Or.inl hpo)))
    · rcases List.mem_append.mp hp with hp | hp
      · exact Or.inr hp
      · rw [List.mem_singleton] at hp
        subst hp
        exact Or.inl hxo
  · intro q
    show s.refNum q = _
    rw [h.hcnt q]
    refine Finset.sum_congr rfl (fun p _ => ?_)
    have hiff : (p ∈ s.out ++ [x] ∧ p ∉ s.active ++ [x]) ↔
        (p ∈ s.out ∧ p ∉ s.active) := by
      constructor
      · intro hc
        have hpx : p ≠ x := by
          intro he
          subst he
          exact hc.2 (List.mem_append.mpr (Or.inr (List.mem_singleton.mpr rfl)))
        rcases List.mem_append.mp hc.1 with hpo | hpo
        · exact ⟨hpo, fun hpa =>
            hc.2 (List.mem_append.mpr (Or.inl hpa))⟩
        · rw [List.mem_singleton] at hpo
          exact absurd hpo hpx
      · intro hc
        refine ⟨List.mem_append.mpr (Or.inl hc.1), fun hpa => ?_⟩
        rcases List.mem_append.mp hpa with hpa | hpa
        · exact hc.2 hpa
        · rw [List.mem_singleton] at hpa
          subst hpa
          exact hxo hc.1
    by_cases hc : p ∈ s.out ∧ p ∉ s.active
    · rw [if_pos hc, if_pos (hiff.mpr hc)]
    · rw [if_neg hc, if_neg (fun hc' => hc (hiff.mp hc'))]
  · intro q hqn
    show (q ∈ pre ++ post ∨ q ∈ s.out ++ [x]) ↔ s.refNum q = 0
    constructor
    · intro hc
      rcases hc with hc | hc
      · refine (h.hzero q hqn).mp (Or.inl ?_)
        rw [hr]
        rcases List.mem_append.mp hc with hc | hc
        · exact List.mem_append.mpr (Or.inl hc)
        · exact List.mem_append.mpr (Or.inr (List.mem_cons_of_mem _ hc))
      · rcases List.mem_append.mp hc with hc | hc
        · exact (h.hzero q hqn).mp (Or.inr hc)
        · rw [List.mem_singleton] at hc
          subst hc
          exact hx0
    · intro hc
      rcases (h.hzero q hqn).mpr hc with hqr | hqo
      · rw [hr] at hqr
        rcases List.mem_append.mp hqr with hqr | hqr
        · exact Or.inl (List.mem_append.mpr (Or.inl hqr))
        · rcases List.mem_cons.mp hqr with he | hqr
          · subst he
            exact Or.inr (List.mem_append.mpr
              (Or.inr (List.mem_singleton.mpr rfl)))
          · exact Or.inl (List.mem_append.mpr (Or.inr hqr))
      · exact Or.inr (List.mem_append.mpr (Or.inl hqo))
  · intro p q hqo hqch
    show ∃ l1 l2, s.out ++ [x] = l1 ++ p :: l2 ∧ q ∈ l2
    rcases List.mem_append.mp hqo with hqo | hqo
    · obtain ⟨l1, l2, hsplit, hql2⟩ := h.horder p q hqo hqch
      refine ⟨l1, l2 ++ [x], ?_, List.mem_append.mpr (Or.inl hql2)⟩
      rw [hsplit, List.append_assoc, List.cons_append]
    · rw [List.mem_singleton] at hqo
      rw [hqo] at hqch ⊢
      -- every predecessor of x is already retired, hence in out
      have hpx := (hE p x hqch).1
      have hxn2 := (hE p x hqch).2
      have hpn : p < n := by omega
      have hsum : ∑ p2 ∈ Finset.range n,
          (if p2 ∈ s.out ∧ p2 ∉ s.active then 0 else (ch0 p2).count x) = 0 := by
        rw [← h.hcnt x]
        exact hx0
      have hterm := (Finset.sum_eq_zero_iff.mp hsum) p
        (Finset.mem_range.mpr hpn)
      have hcp : 0 < (ch0 p).count x := List.count_pos_iff_mem.mpr hqch
      have hpret : p ∈ s.out ∧ p ∉ s.active := by
        by_contra hc
        rw [if_neg hc] at hterm
        omega
      obtain ⟨l1, l2, hsplit⟩ := List.append_of_mem hpret.1
      refine ⟨l1, l2 ++ [x], ?_,
        List.mem_append.mpr (Or.inr (List.mem_singleton.mpr rfl))⟩
      rw [hsplit, List.append_assoc, List.cons_append]

/-- The invariant never inspects the clock or the retirement clocks. -/
theorem SInv_tick_irrel {n : Nat} {ch0 : Nat → List Nat} {A : List Nat}
    {s : SchedState} {cyc : Nat} (h : SInv n ch0 A s) :
    SInv n ch0 A { s with cycle := cyc } :=
  ⟨h.hrem, h.hnodupO, h.houtlt, h.hnodupR, h.hready, h.hnodupA, h.hAsub,
    h.hch, h.hcnt, h.hzero, h.horder⟩

theorem schedPick_inv {n : Nat} {ch0 : Nat → List Nat}
    (hE : ∀ p q, q ∈ ch0 p → p < q ∧ q < n) (c : SchedCtx)
    (lat thr : SelInsn → Nat) (insnAt : Nat → SelInsn) {s : SchedState}
    (h : SInv n ch0 s.active s) :
    SInv n ch0 (schedPick c lat thr insnAt s).active
      (schedPick c lat thr insnAt s) := by
  cases hp : c.policy with
  | POST_ALLOC =>
      cases hr : s.ready with
      | nil =>
          simp only [schedPick, hp, hr]
          refine ⟨h.hrem, h.hnodupO, h.houtlt, List.nodup_nil,
            fun q hq => absurd hq (List.not_mem_nil q), h.hnodupA, h.hAsub,
            h.hch, h.hcnt, ?_, h.horder⟩
          intro q hq
          have hz := h.hzero q hq
          rw [hr] at hz
          exact hz
      | cons x rest =>
          simp only [schedPick, hp, hr]
          exact SInv_pick_core hE h
            (show s.ready = [] ++ x :: rest by rw [hr, List.nil_append]) _ _
  | PRE_ALLOC =>
      cases hg : s.ready.getLast? with
      | none =>
          simp only [schedPick, hp, hg]
          exact SInv_tick_irrel h
      | some x =>
          obtain ⟨l, hr⟩ := List.getLast?_eq_some_iff.mp hg
          simp only [schedPick, hp, hg]
          have hdrop : s.ready.dropLast = l ++ ([] : List Nat) := by
            rw [hr, List.dropLast_concat, List.append_nil]
          rw [hdrop]
          exact SInv_pick_core hE h
            (show s.ready = l ++ x :: [] by rw [hr]) _ _

/-- With an empty ready list and work remaining, some node is still active:
otherwise the least unscheduled node would have all its DAG predecessors
retired and so would be ready. -/
theorem SInv_nonstuck {n : Nat} {ch0 : Nat → List Nat} {s : SchedState}
    (hE : ∀ p q, q ∈ ch0 p → p < q ∧ q < n) (h : SInv n ch0 s.active s)
    (hrem : 0 < s.remaining) (hrd : s.ready = []) : s.active ≠ [] := by
  intro hact
  have hex : ∃ q, q < n ∧ q ∉ s.out := by
    by_contra hc
    push_neg at hc
    have hsub : Finset.range n ⊆ s.out.toFinset := by
      intro q hq
      exact List.mem_toFinset.mpr (hc q (Finset.mem_range.mp hq))
    have hcard := Finset.card_le_card hsub
    rw [Finset.card_range, List.toFinset_card_of_nodup h.hnodupO] at hcard
    have := h.hrem
    omega
  obtain ⟨hq0n, hq0o⟩ := Nat.find_spec hex
  have hsum : s.refNum (Nat.find hex) = 0 := by
    rw [h.hcnt]
    refine Finset.sum_eq_zero ?_
    intro p _
    by_cases hpo : p ∈ s.out ∧ p ∉ s.active
    · rw [if_pos hpo]
    · rw [if_neg hpo]
      by_contra hcnt0
      have hqch : Nat.find hex ∈ ch0 p :=
        List.count_pos_iff_mem.mp (Nat.pos_of_ne_zero hcnt0)
      have hpq := (hE p _ hqch).1
      have hqn := (hE p _ hqch).2
      have hpo2 : p ∈ s.out := by
        by_contra hpo2
        exact Nat.find_min hex hpq ⟨by omega, hpo2⟩
      refine hpo ⟨hpo2, ?_⟩
      rw [hact]
      exact List.not_mem_nil p
  rcases (h.hzero _ hq0n).mpr hsum with hq | hq
  · rw [hrd] at hq
    exact List.not_mem_nil _ hq
  · exact hq0o hq

/-- The wait cost of the active nodes: how far their retirement clocks are
ahead of the current cycle. -/
def Wm (s : SchedState) : Nat :=
  (s.active.map (fun a => s.retiredCycle a + 1 - s.cycle)).sum

theorem sum_map_filter_le (f : Nat → Nat) (p : Nat → Bool) :
    ∀ l : List Nat, ((l.filter p).map f).sum ≤ (l.map f).sum := by
  intro l
  induction l with
  | nil => simp
  | cons a l ih =>
      by_cases hpa : p a = true
      · simp only [List.filter_cons, hpa, if_true, List.map_cons, List.sum_cons]
        omega
      · simp [List.filter_cons, hpa]
        omega

theorem sum_map_lt_of (f g : Nat → Nat) :
    ∀ l : List Nat, l ≠ [] → (∀ a ∈ l, f a < g a) →
      (l.map f).sum < (l.map g).sum := by
  intro l
  induction l with
  | nil => intro h _; exact absurd rfl h
  | cons a l ih =>
      intro _ hlt
      simp only [List.map_cons, List.sum_cons]
      have h1 : f a < g a := hlt a (List.mem_cons_self _ _)
      have h2 : (l.map f).sum ≤ (l.map g).sum := by
        rcases List.eq_nil_or_concat l with hnil | ⟨l2, b, hl⟩
        · subst hnil; simp
        · exact le_of_lt (ih (by rw [hl]; simp)
            (fun x hx => hlt x (List.mem_cons_of_mem _ hx)))
      omega

/-- With an empty ready list a scheduling step just advances the clock. -/
theorem schedPick_empty (c : SchedCtx) (lat thr : SelInsn → Nat)
    (insnAt : Nat → SelInsn) {s : SchedState} (hr : s.ready = []) :
    schedPick c lat thr insnAt s = { s with cycle := s.cycle + 1 } := by
  cases hp : c.policy <;> simp [schedPick, hp, hr]

theorem schedPick_remaining (c : SchedCtx) (lat thr : SelInsn → Nat)
    (insnAt : Nat → SelInsn) {s : SchedState} (hr : s.ready ≠ []) :
    (schedPick c lat thr insnAt s).remaining = s.remaining - 1 := by
  cases hp : c.policy with
  | PRE_ALLOC =>
      rcases List.eq_nil_or_concat s.ready with hnil | ⟨l, a, hl⟩
      · exact absurd hnil hr
      · simp [schedPick, hp, hl, List.getLast?_concat]
  | POST_ALLOC =>
      rcases hl : s.ready with _ | ⟨x, rest⟩
      · exact absurd hl hr
      · simp [schedPick, hp, hl]

/-- One `while` iteration keeps the invariant and decreases the measure:
either an instruction is emitted, or the clock strictly approaches the
earliest retirement. -/
theorem schedStep_progress {n : Nat} {ch0 : Nat → List Nat}
    (hE : ∀ p q, q ∈ ch0 p → p < q ∧ q < n) (c : SchedCtx)
    (lat thr : SelInsn → Nat) (insnAt : Nat → SelInsn) {s : SchedState}
    (h : SInv n ch0 s.active s) (hrem : 0 < s.remaining) :
    SInv n ch0 (schedStep c lat thr insnAt s).active
      (schedStep c lat thr insnAt s) ∧
    ((schedStep c lat thr insnAt s).remaining < s.remaining ∨
      ((schedStep c lat thr insnAt s).remaining = s.remaining ∧
        Wm (schedStep c lat thr insnAt s) < Wm s)) := by
  have h1 := retirePhase_inv hE h
  obtain ⟨hcy, hrc, hout, hrm, hac⟩ := retirePhase_shape s
  have hinv2 := schedPick_inv hE c lat thr insnAt h1
  refine ⟨hinv2, ?_⟩
  by_cases hrd : (retirePhase s).ready = []
  · right
    have hstep_eq : schedStep c lat thr insnAt s =
        { retirePhase s with cycle := (retirePhase s).cycle + 1 } := by
      unfold schedStep
      rw [schedPick_empty c lat thr insnAt hrd]
    rw [hstep_eq]
    constructor
    · show (retirePhase s).remaining = s.remaining
      exact hrm
    · have hne : (retirePhase s).active ≠ [] :=
        SInv_nonstuck hE h1 (by rw [hrm]; exact hrem) hrd
      have hbound : ∀ a ∈ (retirePhase s).active,
          (retirePhase s).cycle < (retirePhase s).retiredCycle a := by
        intro a ha
        rw [hac] at ha
        have hdec := List.of_mem_filter ha
        rw [hcy, hrc]
        exact of_decide_eq_true hdec
      have hlt : Wm { retirePhase s with
          cycle := (retirePhase s).cycle + 1 } < Wm (retirePhase s) := by
        unfold Wm
        refine sum_map_lt_of _ _ (retirePhase s).active hne ?_
        intro a ha
        have := hbound a ha
        show (retirePhase s).retiredCycle a + 1 - ((retirePhase s).cycle + 1) <
          (retirePhase s).retiredCycle a + 1 - (retirePhase s).cycle
        omega
      have hle : Wm (retirePhase s) ≤ Wm s := by
        unfold Wm
        rw [hac, hrc, hcy]
        exact sum_map_filter_le _ _ _
      omega
  · left
    have hdec : (schedStep c lat thr insnAt s).remaining =
        (retirePhase s).remaining - 1 :=
      schedPick_remaining c lat thr insnAt hrd
    rw [hrm] at hdec
    omega

/-- The scheduling loop terminates from any invariant state, emitting a
duplicate-free list of all `n` node indices that respects the DAG edges. -/
theorem schedLoop_total {n : Nat} {ch0 : Nat → List Nat}
    (hE : ∀ p q, q ∈ ch0 p → p < q ∧ q < n) (c : SchedCtx)
    (lat thr : SelInsn → Nat) (insnAt : Nat → SelInsn) :
    ∀ (r w : Nat) (s : SchedState), SInv n ch0 s.active s →
      s.remaining ≤ r → Wm s ≤ w →
      ∃ fuel out, schedLoop c lat thr insnAt fuel s = some out ∧
        out.Nodup ∧ out.length = n ∧ (∀ q ∈ out, q < n) ∧
        (∀ p q, q ∈ out → q ∈ ch0 p →
          ∃ l1 l2, out = l1 ++ p :: l2 ∧ q ∈ l2) := by
  intro r
  induction r with
  | zero =>
      intro w s h hr _
      have h0 : s.remaining = 0 := by omega
      refine ⟨0, s.out, by simp [schedLoop, h0], h.hnodupO, ?_,
        h.houtlt, h.horder⟩
      have := h.hrem
      omega
  | succ r ihr =>
      intro w
      induction w with
      | zero =>
          intro s h hrr hw
          by_cases h0 : s.remaining = 0
          · refine ⟨0, s.out, by simp [schedLoop, h0], h.hnodupO, ?_,
              h.houtlt, h.horder⟩
            have := h.hrem
            omega
          · have hpos : 0 < s.remaining := Nat.pos_of_ne_zero h0
            obtain ⟨hinv2, hdec⟩ :=
              schedStep_progress hE c lat thr insnAt h hpos
            rcases hdec with hlt | ⟨_, hwlt⟩
            · obtain ⟨fuel, out, hloop, hprops⟩ :=
                ihr (Wm (schedStep c lat thr insnAt s)) _ hinv2
                  (by omega) le_rfl
              exact ⟨fuel + 1, out, by simp [schedLoop, h0, hloop], hprops⟩
            · omega
      | succ w ihw =>
          intro s h hrr hw
          by_cases h0 : s.remaining = 0
          · refine ⟨0, s.out, by simp [schedLoop, h0], h.hnodupO, ?_,
              h.houtlt, h.horder⟩
            have := h.hrem
            omega
          · have hpos : 0 < s.remaining := Nat.pos_of_ne_zero h0
            obtain ⟨hinv2, hdec⟩ :=
              schedStep_progress hE c lat thr insnAt h hpos
            rcases hdec with hlt | ⟨heq, hwlt⟩
            · obtain ⟨fuel, out, hloop, hprops⟩ :=
                ihr (Wm (schedStep c lat thr insnAt s)) _ hinv2
                  (by omega) le_rfl
              exact ⟨fuel + 1, out, by simp [schedLoop, h0, hloop], hprops⟩
            · obtain ⟨fuel, out, hloop, hprops⟩ :=
                ihw _ hinv2 (by omega) (by omega)
              exact ⟨fuel + 1, out, by simp [schedLoop, h0, hloop], hprops⟩

/-- The entry state of `scheduleDAG` satisfies the loop invariant. -/
theorem initSched_inv (c : SchedCtx) (block : List SelInsn) :
    SInv block.length (buildDAG c block).children
      (initSched (buildDAG c block)).active
      (initSched (buildDAG c block)) := by
  obtain ⟨hPE, hPC⟩ := buildDAG_PEC c block
  refine ⟨?_, List.nodup_nil, fun q hq => absurd hq (List.not_mem_nil q),
    ?_, ?_, List.nodup_nil, fun p hp => absurd hp (List.not_mem_nil p),
    fun p _ => rfl, ?_, ?_,
    fun p q hq _ => absurd hq (List.not_mem_nil q)⟩
  · show block.length + ([] : List Nat).length = block.length
    simp
  · show ((List.range block.length).filter
      (fun q => (buildDAG c block).refNum q == 0)).Nodup
    exact (List.nodup_range _).filter _
  · intro q hq
    show q < block.length ∧ q ∉ ([] : List Nat)
    have hq' := List.mem_of_mem_filter hq
    exact ⟨List.mem_range.mp hq', List.not_mem_nil q⟩
  · intro q
    show (buildDAG c block).refNum q = _
    rw [hPC q]
    unfold sumCount
    refine Finset.sum_congr rfl (fun p _ => ?_)
    rw [if_neg]
    intro hc
    exact List.not_mem_nil p hc.1
  · intro q hqn
    show (q ∈ (List.range block.length).filter
        (fun q => (buildDAG c block).refNum q == 0) ∨
      q ∈ ([] : List Nat)) ↔ (buildDAG c block).refNum q = 0
    constructor
    · intro hc
      rcases hc with hc | hc
      · have := List.of_mem_filter hc
        simpa using this
      · exact absurd hc (List.not_mem_nil q)
    · intro hc
      refine Or.inl (List.mem_filter.mpr ⟨List.mem_range.mpr hqn, ?_⟩)
      simpa using hc

theorem map_getD_range {α : Type} [Inhabited α] (l : List α) :
    (List.range l.length).map (fun i => l.getD i default) = l := by
  refine List.ext_getElem (by simp) ?_
  intro i h1 h2
  simp [List.getD_eq_getElem?_getD, List.getElem?_eq_getElem h2]

theorem out_perm_range {n : Nat} {out : List Nat} (hnd : out.Nodup)
    (hlen : out.length = n) (hlt : ∀ q ∈ out, q < n) :
    out.Perm (List.range n) := by
  rw [List.perm_ext_iff_of_nodup hnd (List.nodup_range n)]
  have hsub : out.toFinset ⊆ Finset.range n := fun q hq =>
    Finset.mem_range.mpr (hlt q (List.mem_toFinset.mp hq))
  have hcard : out.toFinset.card = n := by
    rw [List.toFinset_card_of_nodup hnd, hlen]
  have heq : out.toFinset = Finset.range n :=
    Finset.eq_of_subset_of_card_le hsub (by rw [hcard, Finset.card_range])
  intro a
  constructor
  · intro ha
    exact List.mem_range.mpr (hlt a ha)
  · intro ha
    have hm : a ∈ out.toFinset := by
      rw [heq]
      exact Finset.mem_range.mpr (List.mem_range.mp ha)
    exact List.mem_toFinset.mp hm

/-- C2: `buildDAG` followed by `scheduleDAG` rewrites the block to exactly
the same multiset of instructions (each of the `n` original positions is
emitted exactly once), and no instruction is emitted before an instruction
it depends on in the dependency DAG derived from the original order. -/
theorem scheduleBlock_perm (c : SchedCtx) (lat thr : SelInsn → Nat)
    (block : List SelInsn) :
    ∃ fuel out,
      scheduleBlock c lat thr block fuel =
        some (out.map (fun i => block.getD i default)) ∧
      (out.map (fun i => block.getD i default)).Perm block ∧
      out.Perm (List.range block.length) ∧
      out.Nodup ∧
      (∀ p q, q ∈ out → q ∈ (buildDAG c block).children p →
        ∃ l1 l2, out = l1 ++ p :: l2 ∧ q ∈ l2) := by
  obtain ⟨fuel, out, hloop, hnd, hlen, hlt, hord⟩ :=
    schedLoop_total (buildDAG_PEC c block).1 c lat thr
      (fun i => block.getD i default)
      (initSched (buildDAG c block)).remaining
      (Wm (initSched (buildDAG c block)))
      (initSched (buildDAG c block)) (initSched_inv c block) le_rfl le_rfl
  refine ⟨fuel, out, ?_, ?_, out_perm_range hnd hlen hlt, hnd, hord⟩
  · show (schedLoop c lat thr (fun i => block.getD i default) fuel
      (initSched (buildDAG c block))).map
        (fun o => o.map (fun i => block.getD i default)) = _
    rw [hloop]
    rfl
  · have hperm := (out_perm_range hnd hlen hlt).map
      (fun i => block.getD i default)
    rwa [map_getD_range] at hperm

/-- C10: every dependency edge created by `buildDAG` goes from an earlier
instruction of the block to a later one (in particular no node is linked to
itself), so the DAG is acyclic and the fuelled `scheduleDAG` loop reaches
its exit for every block, emitting exactly the number of instructions
counted by `buildDAG`. -/
theorem buildDAG_forward_terminates (c : SchedCtx) (lat thr : SelInsn → Nat)
    (block : List SelInsn) :
    (∀ p q, q ∈ (buildDAG c block).children p → p < q ∧ q < block.length) ∧
    (∀ p, p ∉ (buildDAG c block).children p) ∧
    (∃ fuel out,
      schedLoop c lat thr (fun i => block.getD i default) fuel
        (initSched (buildDAG c block)) = some out ∧
      out.length = (buildDAG c block).insnNum) := by
  obtain ⟨hPE, hPC⟩ := buildDAG_PEC c block
  refine ⟨hPE, ?_, ?_⟩
  · intro p hp
    exact absurd (hPE p p hp).1 (lt_irrefl p)
  · obtain ⟨fuel, out, hloop, _, hlen, _, _⟩ :=
      schedLoop_total hPE c lat thr (fun i => block.getD i default)
        (initSched (buildDAG c block)).remaining
        (Wm (initSched (buildDAG c block)))
        (initSched (buildDAG c block)) (initSched_inv c block) le_rfl le_rfl
    exact ⟨fuel, out, hloop, by rw [hlen]; rfl⟩

end Beignet
